import Mathlib

/-!
# pink-whisper: connection handler, framing and sample conversion

A shallow embedding of `src/pink-whisper.cpp` (POSIX branch of the
`#ifdef _WIN32` split, little-endian host):

* `recv` / `send` are the two system calls, modelled as an environment: the
  connection carries the bytes the peer delivers and, for the i-th call of each
  kind, the result the system would like to return; a `send` on a connection
  that the peer has closed may not return at all (SIGPIPE: the flags are 0 and
  no handler is installed), which ends the run inside the call;
* `recv_all` records how far into its destination the `recv` calls have stored
  bytes; `handle_client` compares that extent with the storage of `pcm16` and
  does not follow a run past a store beyond it (`Outcome.undefined`);
* `recv_all`, `send_all`, `transcribe`, `handle_client` follow the C++ text
  statement by statement; `int n = recv(...)` narrows the `ssize_t` result to
  32 bits (`toInt32`), `uint32_t text_size = text.size()` reduces modulo 2^32;
* `float` values are the rationals they denote; `(float)x` and `/` round to
  binary32 with `roundF32`;
* every loop carries a bound on its number of iterations that is known on
  entry (`remaining` bytes, `n_segments`, `pcm16.size()`), so that the
  embedding is structurally recursive and evaluates on concrete inputs; the
  bound is never reached while the loop condition still holds
  (`recv_all_loop_fuel`, `send_all_loop_fuel`).
-/

namespace PinkWhisper

/-! ## Machine integers and bytes -/

/-- One octet on the wire or in memory. -/
abbrev Byte := Fin 256

/-- Conversion of a (64-bit) value to `int`: reduction modulo 2^32 into
`[-2^31, 2^31)`, as performed by `int n = recv(...)` and `int n = send(...)`. -/
def toInt32 (r : Int) : Int := (r + 2147483648) % 4294967296 - 2147483648

/-- Value of an `int16_t` whose two bytes hold the unsigned value `v`. -/
def toInt16 (v : Nat) : Int := if v % 65536 < 32768 then (v % 65536 : Nat) else ((v % 65536 : Nat) : Int) - 65536

/-- The `int16_t` stored at two consecutive bytes (little-endian host). -/
def int16le (b0 b1 : Byte) : Int := toInt16 (b0.val + 256 * b1.val)

/-- The `uint32_t` whose object representation is the given bytes
(little-endian host); `recv_all(client, &audio_size, 4)` fills exactly four. -/
def le32 : List Byte → Nat
  | [] => 0
  | b :: bs => b.val + 256 * le32 bs

/-- The four bytes of the object representation of a `uint32_t`
(little-endian host), as read by `send_all(client, &text_size, 4)`. -/
def le32bytes (v : Nat) : List Byte :=
  [Fin.ofNat (v % 256), Fin.ofNat (v / 256 % 256), Fin.ofNat (v / 65536 % 256),
   Fin.ofNat (v / 16777216 % 256)]

/-- The elements of a `std::vector<int16_t>` whose storage holds the given
bytes: element `i` occupies bytes `2i` and `2i+1`. A trailing unpaired byte
belongs to no element. -/
def pcm16_of_bytes : List Byte → List Int
  | b0 :: b1 :: rest => int16le b0 b1 :: pcm16_of_bytes rest
  | _ => []

/-- Bytes of an ASCII string literal (without the terminating NUL). -/
def cstr (s : String) : List Byte := s.toList.map fun ch => Fin.ofNat ch.toNat

/-! ## binary32 arithmetic -/

/-- Nearest integer, ties to the even one. -/
def roundHalfEven (x : ℚ) : Int :=
  let f := Int.floor x
  let d := x - f
  if d < 1 / 2 then f else if 1 / 2 < d then f + 1 else if f % 2 = 0 then f else f + 1

/-- Exponent of the last place of a binary32 value of magnitude `|x|`:
24 significant bits, subnormals from 2^-149. -/
def ulpExp (x : ℚ) : Int := max (Int.log 2 |x| - 23) (-149)

/-- IEEE-754 binary32 round-to-nearest-even of an exact value (finite range;
overflow to infinity starts at 2^128 and does not concern operands of
magnitude at most 32768). -/
def roundF32 (x : ℚ) : ℚ := roundHalfEven (x / 2 ^ ulpExp x) * 2 ^ ulpExp x

/-- The cast `(float)pcm16[i]`. -/
def floatOfInt16 (s : Int) : ℚ := roundF32 s

/-- The binary32 division `a / b`. -/
def fdiv (a b : ℚ) : ℚ := roundF32 (a / b)

/-! ## The socket environment -/

/-- Actions performed on the client socket, and the engine call, in program
order. `sigpipe` is a `send` call that does not return: the peer has closed
the connection, the call raises SIGPIPE and the process is terminated. -/
inductive Event where
  | recv (len : Nat) (ret : Int)
  | send (offered : List Byte) (ret : Int)
  | sigpipe (offered : List Byte)
  | engine (samples : List ℚ)
  | close
  deriving DecidableEq

/-- Is the event a `recv` call? -/
def Event.isRecv : Event → Bool
  | Event.recv _ _ => true
  | _ => false

/-- Is the event a `send` call (returning or not)? -/
def Event.isSend : Event → Bool
  | Event.send _ _ => true
  | Event.sigpipe _ => true
  | _ => false

/-- Is the event the engine call? -/
def Event.isEngine : Event → Bool
  | Event.engine _ => true
  | _ => false

/-- Is the event the closing of the socket? -/
def Event.isClose : Event → Bool
  | Event.close => true
  | _ => false

/-- The bytes offered by a `send` call (none for other events). -/
def Event.offered : Event → List Byte
  | Event.send offered _ => offered
  | Event.sigpipe offered => offered
  | _ => []

/-- State of one accepted connection together with its environment.
`incoming` are the bytes the peer delivers before closing its side;
`recvRet i` / `sendRet i` is what the i-th `recv` / `send` call would return
if not limited by the request: negative for an error, otherwise a byte
count. For `send`, -1 is an error return and a value below -1 stands for a
call that does not return: the process is terminated by SIGPIPE (the flags
are 0 and the program installs no handler). -/
structure Conn where
  incoming : List Byte
  recvRet : Nat → Int
  sendRet : Nat → Int
  nrecv : Nat
  nsend : Nat
  written : List Byte
  log : List Event

/-- A freshly accepted connection. -/
def Conn.accepted (incoming : List Byte) (recvRet sendRet : Nat → Int) : Conn :=
  { incoming := incoming, recvRet := recvRet, sendRet := sendRet,
    nrecv := 0, nsend := 0, written := [], log := [] }

/-- Result of one `recv` call: return value, bytes stored at `ptr`, new state. -/
structure RecvResult where
  ret : Int
  data : List Byte
  conn : Conn

/-- The system call `recv(sock, ptr, len, 0)`: returns -1 on error, otherwise at most
`len` bytes of what the peer delivered (0 once the peer has closed and
nothing is left). -/
def recv (c : Conn) (len : Nat) : RecvResult :=
  let wish := c.recvRet c.nrecv
  if wish < 0 then
    { ret := -1, data := [],
      conn := { c with nrecv := c.nrecv + 1, log := c.log ++ [Event.recv len (-1)] } }
  else
    let k := min (min wish.toNat len) c.incoming.length
    { ret := k, data := c.incoming.take k,
      conn := { c with incoming := c.incoming.drop k, nrecv := c.nrecv + 1,
                       log := c.log ++ [Event.recv len k] } }

/-- Result of one `send` call: whether the process was terminated inside the
call, the return value otherwise, and the new state. -/
structure SendResult where
  killed : Bool
  ret : Int
  conn : Conn

/-- The system call `send(sock, ptr, len, 0)` with the `len` bytes at `ptr` given as
`buf`: terminates the process (SIGPIPE), or returns -1 on error, otherwise
the number of leading bytes accepted. -/
def send (c : Conn) (buf : List Byte) : SendResult :=
  let wish := c.sendRet c.nsend
  if wish < -1 then
    { killed := true, ret := -1,
      conn := { c with nsend := c.nsend + 1, log := c.log ++ [Event.sigpipe buf] } }
  else if wish < 0 then
    { killed := false, ret := -1,
      conn := { c with nsend := c.nsend + 1, log := c.log ++ [Event.send buf (-1)] } }
  else
    let k := min wish.toNat buf.length
    { killed := false, ret := k,
      conn := { c with written := c.written ++ buf.take k, nsend := c.nsend + 1,
                       log := c.log ++ [Event.send buf k] } }

/-- The call `CLOSE_SOCKET(client)`. -/
def CLOSE_SOCKET (c : Conn) : Conn := { c with log := c.log ++ [Event.close] }

/-! ## The program -/

/-- Result of `recv_all`: the returned flag, the bytes left in the buffer
before `ptr`, how far into the buffer the `recv` calls have stored bytes
(`stored` bytes from its start), and the new state. -/
structure RecvAll where
  ok : Bool
  buf : List Byte
  stored : Nat
  conn : Conn

/-- The loop `while (remaining > 0)` of `recv_all`; `acc` holds the bytes
before `ptr`. The first argument bounds the iterations still to run: every
iteration that continues has `n > 0`, so with a bound of at least `remaining`
the first case is reached only when `remaining = 0`, where the loop exits
with `true`. Each `recv` stores its bytes from `ptr` on, whatever `n` the
loop then sees. -/
def recv_all_loop : Nat → Conn → List Byte → Nat → RecvAll
  | 0, c, acc, _ => { ok := true, buf := acc, stored := acc.length, conn := c }
  | fuel + 1, c, acc, remaining =>
    if remaining > 0 then
      let r := recv c remaining
      let n := toInt32 r.ret
      if n ≤ 0 then
        { ok := false, buf := acc, stored := acc.length + r.data.length, conn := r.conn }
      else
        let rest := recv_all_loop fuel r.conn (acc ++ r.data.take n.toNat) (remaining - n.toNat)
        { rest with stored := max (acc.length + r.data.length) rest.stored }
    else { ok := true, buf := acc, stored := acc.length, conn := c }

/-- Embedding of `bool recv_all(socket_t sock, void* buf, size_t len)`. -/
def recv_all (sock : Conn) (len : Nat) : RecvAll := recv_all_loop len sock [] len

/-- Result of `send_all`: whether the process was terminated inside a `send`,
the returned flag otherwise, and the new state. -/
structure SendAll where
  killed : Bool
  ok : Bool
  conn : Conn

/-- The loop `while (remaining > 0)` of `send_all`; `rest` are the `remaining`
bytes from `ptr` on. The first argument bounds the iterations still to run,
as in `recv_all_loop`. -/
def send_all_loop : Nat → Conn → List Byte → SendAll
  | 0, c, _ => { killed := false, ok := true, conn := c }
  | fuel + 1, c, rest =>
    if rest.length > 0 then
      let r := send c rest
      if r.killed then { killed := true, ok := false, conn := r.conn }
      else
        let n := toInt32 r.ret
        if n ≤ 0 then { killed := false, ok := false, conn := r.conn }
        else send_all_loop fuel r.conn (rest.drop n.toNat)
    else { killed := false, ok := true, conn := c }

/-- Embedding of `bool send_all(socket_t sock, const void* buf, size_t len)`, with the
`len` bytes at `buf` given as a list. -/
def send_all (sock : Conn) (buf : List Byte) : SendAll := send_all_loop buf.length sock buf

/-- What the engine reports for one `whisper_full` call: its return value,
`whisper_full_n_segments` and `whisper_full_get_segment_text`; the text of a
segment is given by the bytes of the C string before its terminating NUL. -/
structure EngineResult where
  status : Int
  n_segments : Int
  segment_text : Int → List Byte

/-- The loaded model `g_ctx`, as the function from the samples passed to
`whisper_full` to what the engine then reports. -/
abbrev Engine := List ℚ → EngineResult

/-- The loop `for (int i = 0; i < n_segments; i++) result += text;`
of `transcribe`, from index `i` on. -/
def segment_loop (r : EngineResult) : Nat → Int → List Byte → List Byte
  | 0, _, result => result
  | fuel + 1, i, result =>
    if i < r.n_segments then segment_loop r fuel (i + 1) (result ++ r.segment_text i)
    else result

/-- Embedding of `std::string transcribe(const std::vector<float>& pcmf32)`. The
decoding parameters set up before the call belong to the engine and are part
of `g_ctx` here. -/
def transcribe (g_ctx : Engine) (pcmf32 : List ℚ) : List Byte :=
  if (g_ctx pcmf32).status ≠ 0 then cstr "[error: inference failed]"
  else segment_loop (g_ctx pcmf32) (g_ctx pcmf32).n_segments.toNat 0 []

/-- The loop `for (size_t i = 0; i < pcm16.size(); i++) pcmf32[i] = (float)pcm16[i] / 32768.0f;`
of `handle_client`, from index `i` on. -/
def convert_loop (pcm16 : List Int) : Nat → Nat → List ℚ → List ℚ
  | 0, _, pcmf32 => pcmf32
  | fuel + 1, i, pcmf32 =>
    if i < pcm16.length then
      convert_loop pcm16 fuel (i + 1) (pcmf32.set i (fdiv (floatOfInt16 (pcm16.getD i 0)) 32768))
    else pcmf32

/-- The block "Convert to float32" of `handle_client`: a zero-filled vector of
`pcm16.size()` floats, then the loop. -/
def convert (pcm16 : List Int) : List ℚ :=
  convert_loop pcm16 pcm16.length 0 (List.replicate pcm16.length 0)

/-- How a run of `handle_client` ends, with the state reached: the function
returns; or the process is terminated inside a `send`; or a `recv` has been
given bytes to store past the end of the vector `pcm16`, from where the
behaviour of the program is not defined by its text and the run is not
followed further. -/
inductive Outcome where
  | returned (c : Conn)
  | killed (c : Conn)
  | undefined (c : Conn)

/-- The state carried by an outcome. -/
def Outcome.conn : Outcome → Conn
  | Outcome.returned c => c
  | Outcome.killed c => c
  | Outcome.undefined c => c

/-- Did the function return? -/
def Outcome.isReturned : Outcome → Bool
  | Outcome.returned _ => true
  | _ => false

/-- Did a store go past the end of `pcm16`? -/
def Outcome.isUndefined : Outcome → Bool
  | Outcome.undefined _ => true
  | _ => false

/-- The block "Send response" of `handle_client`, up to and including the
final `CLOSE_SOCKET`, with the way it ends. -/
def respond_outcome (client : Conn) (text : List Byte) : Outcome :=
  let text_size := text.length % 4294967296
  let r1 := send_all client (le32bytes text_size)
  if r1.killed then Outcome.killed r1.conn
  else
    let r2 := send_all r1.conn (text.take text_size)
    if r2.killed then Outcome.killed r2.conn
    else Outcome.returned (CLOSE_SOCKET r2.conn)

/-- The state after the block "Send response" of `handle_client`. -/
def respond (client : Conn) (text : List Byte) : Conn := (respond_outcome client text).conn

/-- The call of the engine made inside `transcribe`, recorded in the log. -/
def engine_call (c : Conn) (pcmf32 : List ℚ) : Conn :=
  { c with log := c.log ++ [Event.engine pcmf32] }

/-- Embedding of `void handle_client(socket_t client)`. The vector `pcm16` has
`audio_size / 2` elements, that is `2 * (audio_size / 2)` bytes of storage, and
`recv_all` is asked to store `audio_size` bytes from its first element on.
As long as the stores stay inside the vector its elements are those of the
received bytes taken in pairs; a store beyond it (an odd `audio_size` whose
last byte arrives; for `audio_size = 1` the vector is empty and has no
storage at all) ends the run as `Outcome.undefined`. The 4-byte object
`audio_size` of the first read is never overrun (`recv_all_stored_le`). Both
`send_all` results are discarded, as in the source. -/
def handle_client (g_ctx : Engine) (client : Conn) : Outcome :=
  let r1 := recv_all client 4
  if !r1.ok then Outcome.returned (CLOSE_SOCKET r1.conn)
  else
    let audio_size := le32 r1.buf
    let r2 := recv_all r1.conn audio_size
    if 2 * (audio_size / 2) < r2.stored then Outcome.undefined r2.conn
    else if !r2.ok then Outcome.returned (CLOSE_SOCKET r2.conn)
    else
      let pcm16 := pcm16_of_bytes r2.buf
      let pcmf32 := convert pcm16
      let text := transcribe g_ctx pcmf32
      respond_outcome (engine_call r2.conn pcmf32) text

/-! ## Specification vocabulary -/

/-- Every call returns at least one byte and a count that an `int` holds. -/
def fitsInt (ret : Nat → Int) : Prop := ∀ i, 1 ≤ ret i ∧ ret i < 2147483648

/-- The `send` events of one `send_all` call on `buf` in which every `send`
returns: each call offers what is left of `buf`; after a result that the loop
accepts the next call offers what is left after it, after any other result
there is no further call; when nothing is left there is no call. -/
def is_transfer : List Event → List Byte → Bool
  | [], buf => buf.isEmpty
  | Event.send offered ret :: rest, buf =>
    !buf.isEmpty && decide (offered = buf) &&
      (if toInt32 ret ≤ 0 then rest.isEmpty
       else is_transfer rest (buf.drop (toInt32 ret).toNat))
  | _ :: _, _ => false

/-- The first read of `handle_client`: the 4-byte length prefix. -/
def read_header (client : Conn) : RecvAll := recv_all client 4

/-- The second read of `handle_client`: `audio_size` bytes of payload. -/
def read_payload (client : Conn) : RecvAll :=
  recv_all (read_header client).conn (le32 (read_header client).buf)

/-- Modelled from the spec: the client-side decoder of a response frame, which
is not part of the server source: "read 4 bytes as a length, then that many
bytes". Returns the text and the bytes after the frame. -/
def decode_frame (stream : List Byte) : Option (List Byte × List Byte) :=
  if stream.length < 4 then none
  else
    let len := le32 (stream.take 4)
    let body := stream.drop 4
    if body.length < len then none else some (body.take len, body.drop len)

/-- The first byte count that an `int` does not hold, 2^31. -/
def two31 : Nat := 2147483648

/-- A connection on which the peer sends a request of `two31` zero bytes and
the system delivers whatever is requested in one call (the 4 length bytes,
then the whole payload); sends are accepted byte by byte. -/
def big_request : Conn :=
  Conn.accepted (le32bytes two31 ++ List.replicate two31 0) (fun _ => 2147483648) (fun _ => 1)

/-- A text of `two31 + 1` zero bytes. -/
def big_text : List Byte := List.replicate (two31 + 1) 0

/-- A connection whose `send` accepts up to 2^31 bytes per call. -/
def greedy_peer : Conn := Conn.accepted [] (fun _ => 1) (fun _ => 2147483648)

/-- An engine that succeeds with the single segment "ok". -/
def ok_engine : Engine := fun _ => EngineResult.mk 0 1 (fun _ => cstr "ok")

/-- A text of `two31 + 1` letters `a`. -/
def long_text : List Byte := List.replicate (two31 + 1) 97

/-- An engine that succeeds with the single segment `long_text`. -/
def long_engine : Engine := fun _ => EngineResult.mk 0 1 (fun _ => long_text)

/-- A connection carrying an empty request (`N = 0`) whose `send` accepts up
to 2^31 bytes per call. -/
def greedy_request : Conn :=
  Conn.accepted (le32bytes 0) (fun _ => 4) (fun _ => 2147483648)

/-- An engine whose `whisper_full` call fails. -/
def failing_engine : Engine := fun _ => EngineResult.mk 1 0 (fun _ => [])

/-! ## Machine integers -/

theorem fitsInt_const (k : Int) (h1 : 1 ≤ k) (h2 : k < 2147483648) : fitsInt (fun _ => k) :=
  fun _ => ⟨h1, h2⟩

theorem toInt32_of_small {r : Int} (h0 : 0 ≤ r) (h1 : r < 2147483648) : toInt32 r = r := by
  unfold toInt32; omega

theorem toInt32_neg_one : toInt32 (-1) = -1 := by decide

theorem toInt32_pos_le {r : Int} (h0 : 0 ≤ r) (h : 0 < toInt32 r) : toInt32 r ≤ r := by
  unfold toInt32 at *; omega

theorem toInt32_pos_eq {r : Int} (h0 : 0 ≤ r) (h1 : r < 4294967296) (h : 0 < toInt32 r) :
    toInt32 r = r := by
  unfold toInt32 at *; omega

theorem le32_le32bytes (v : Nat) (h : v < 4294967296) : le32 (le32bytes v) = v := by
  simp only [le32, le32bytes, Fin.ofNat, Fin.val_mk]
  omega

theorem le32bytes_length (v : Nat) : (le32bytes v).length = 4 := rfl

theorem le32_lt (bs : List Byte) : le32 bs < 256 ^ bs.length := by
  induction bs with
  | nil => simp [le32]
  | cons b bs ih =>
    have hb := b.isLt
    simp only [le32, List.length_cons, pow_succ]
    omega

/-! ## Kinds of events -/

theorem isRecv_not_others {e : Event} (h : e.isRecv = true) :
    e.isSend = false ∧ e.isEngine = false ∧ e.isClose = false := by
  cases e <;> simp_all [Event.isRecv, Event.isSend, Event.isEngine, Event.isClose]

theorem recv_neg (c : Conn) (len : Nat) (h : c.recvRet c.nrecv < 0) :
    recv c len = RecvResult.mk (-1) []
      { c with nrecv := c.nrecv + 1, log := c.log ++ [Event.recv len (-1)] } := by
  simp only [recv, h, if_true]

theorem recv_nonneg (c : Conn) (len : Nat) (h : ¬ c.recvRet c.nrecv < 0) :
    recv c len = RecvResult.mk
      (min (min (c.recvRet c.nrecv).toNat len) c.incoming.length : Nat)
      (c.incoming.take (min (min (c.recvRet c.nrecv).toNat len) c.incoming.length))
      { c with
          incoming := c.incoming.drop (min (min (c.recvRet c.nrecv).toNat len) c.incoming.length),
          nrecv := c.nrecv + 1,
          log := c.log ++
            [Event.recv len (min (min (c.recvRet c.nrecv).toNat len) c.incoming.length : Nat)] } := by
  simp only [recv, h, if_false]

@[simp] theorem recv_written (c : Conn) (len : Nat) : (recv c len).conn.written = c.written := by
  by_cases h : c.recvRet c.nrecv < 0
  · rw [recv_neg c len h]
  · rw [recv_nonneg c len h]

@[simp] theorem recv_sendRet (c : Conn) (len : Nat) : (recv c len).conn.sendRet = c.sendRet := by
  by_cases h : c.recvRet c.nrecv < 0
  · rw [recv_neg c len h]
  · rw [recv_nonneg c len h]

@[simp] theorem recv_nsend (c : Conn) (len : Nat) : (recv c len).conn.nsend = c.nsend := by
  by_cases h : c.recvRet c.nrecv < 0
  · rw [recv_neg c len h]
  · rw [recv_nonneg c len h]

@[simp] theorem recv_recvRet (c : Conn) (len : Nat) : (recv c len).conn.recvRet = c.recvRet := by
  by_cases h : c.recvRet c.nrecv < 0
  · rw [recv_neg c len h]
  · rw [recv_nonneg c len h]

theorem recv_log (c : Conn) (len : Nat) :
    (recv c len).conn.log = c.log ++ [Event.recv len (recv c len).ret] := by
  by_cases h : c.recvRet c.nrecv < 0
  · rw [recv_neg c len h]
  · rw [recv_nonneg c len h]

/-- What a `recv` call can do: fail with -1 and move nothing, or hand over a
leading part of the pending bytes, no longer than requested. -/
theorem recv_cases (c : Conn) (len : Nat) :
    ((recv c len).ret = -1 ∧ (recv c len).data = [] ∧ (recv c len).conn.incoming = c.incoming) ∨
    (∃ k : Nat, (recv c len).ret = k ∧ k ≤ len ∧ k ≤ c.incoming.length ∧
      (recv c len).data = c.incoming.take k ∧ (recv c len).conn.incoming = c.incoming.drop k) := by
  by_cases h : c.recvRet c.nrecv < 0
  · rw [recv_neg c len h]
    exact Or.inl ⟨rfl, rfl, rfl⟩
  · rw [recv_nonneg c len h]
    exact Or.inr ⟨_, rfl, by omega, by omega, rfl, rfl⟩

/-- A `recv` call whose script entry is positive and fits an `int`, with bytes
pending, returns a positive count that fits an `int`. -/
theorem recv_fits (c : Conn) (len : Nat) (h : fitsInt c.recvRet) (hlen : 0 < len)
    (hin : 0 < c.incoming.length) :
    ∃ k : Nat, 0 < k ∧ k < 2147483648 ∧ k ≤ len ∧ k ≤ c.incoming.length ∧
      (recv c len).ret = k ∧ (recv c len).data = c.incoming.take k ∧
      (recv c len).conn.incoming = c.incoming.drop k := by
  have hw := h c.nrecv
  have hneg : ¬ c.recvRet c.nrecv < 0 := by omega
  rw [recv_nonneg c len hneg]
  exact ⟨_, by omega, by omega, by omega, by omega, rfl, rfl, rfl⟩

theorem send_sigpipe (c : Conn) (buf : List Byte) (h : c.sendRet c.nsend < -1) :
    send c buf = SendResult.mk true (-1)
      { c with nsend := c.nsend + 1, log := c.log ++ [Event.sigpipe buf] } := by
  simp only [send, h, if_true]

theorem send_neg (c : Conn) (buf : List Byte) (h0 : ¬ c.sendRet c.nsend < -1)
    (h : c.sendRet c.nsend < 0) :
    send c buf = SendResult.mk false (-1)
      { c with nsend := c.nsend + 1, log := c.log ++ [Event.send buf (-1)] } := by
  simp only [send, h0, h, if_true, if_false]

theorem send_nonneg (c : Conn) (buf : List Byte) (h : ¬ c.sendRet c.nsend < 0) :
    send c buf = SendResult.mk false
      (min (c.sendRet c.nsend).toNat buf.length : Nat)
      { c with
          written := c.written ++ buf.take (min (c.sendRet c.nsend).toNat buf.length),
          nsend := c.nsend + 1,
          log := c.log ++ [Event.send buf (min (c.sendRet c.nsend).toNat buf.length : Nat)] } := by
  have h0 : ¬ c.sendRet c.nsend < -1 := by omega
  simp only [send, h0, h, if_false]

/-- The three ways a `send` call can go. -/
theorem send_trichotomy (c : Conn) (buf : List Byte) :
    (c.sendRet c.nsend < -1 ∧ send c buf = SendResult.mk true (-1)
      { c with nsend := c.nsend + 1, log := c.log ++ [Event.sigpipe buf] }) ∨
    (c.sendRet c.nsend = -1 ∧ send c buf = SendResult.mk false (-1)
      { c with nsend := c.nsend + 1, log := c.log ++ [Event.send buf (-1)] }) ∨
    (0 ≤ c.sendRet c.nsend ∧ send c buf = SendResult.mk false
      (min (c.sendRet c.nsend).toNat buf.length : Nat)
      { c with
          written := c.written ++ buf.take (min (c.sendRet c.nsend).toNat buf.length),
          nsend := c.nsend + 1,
          log := c.log ++
            [Event.send buf (min (c.sendRet c.nsend).toNat buf.length : Nat)] }) := by
  by_cases h0 : c.sendRet c.nsend < -1
  · exact Or.inl ⟨h0, send_sigpipe c buf h0⟩
  · by_cases h : c.sendRet c.nsend < 0
    · exact Or.inr (Or.inl ⟨by omega, send_neg c buf h0 h⟩)
    · exact Or.inr (Or.inr ⟨by omega, send_nonneg c buf h⟩)

@[simp] theorem send_incoming (c : Conn) (buf : List Byte) :
    (send c buf).conn.incoming = c.incoming := by
  rcases send_trichotomy c buf with ⟨_, h⟩ | ⟨_, h⟩ | ⟨_, h⟩ <;> rw [h]

@[simp] theorem send_recvRet (c : Conn) (buf : List Byte) :
    (send c buf).conn.recvRet = c.recvRet := by
  rcases send_trichotomy c buf with ⟨_, h⟩ | ⟨_, h⟩ | ⟨_, h⟩ <;> rw [h]

@[simp] theorem send_nrecv (c : Conn) (buf : List Byte) : (send c buf).conn.nrecv = c.nrecv := by
  rcases send_trichotomy c buf with ⟨_, h⟩ | ⟨_, h⟩ | ⟨_, h⟩ <;> rw [h]

@[simp] theorem send_sendRet (c : Conn) (buf : List Byte) :
    (send c buf).conn.sendRet = c.sendRet := by
  rcases send_trichotomy c buf with ⟨_, h⟩ | ⟨_, h⟩ | ⟨_, h⟩ <;> rw [h]

theorem send_killed_iff (c : Conn) (buf : List Byte) :
    (send c buf).killed = true ↔ c.sendRet c.nsend < -1 := by
  rcases send_trichotomy c buf with ⟨h0, h⟩ | ⟨h0, h⟩ | ⟨h0, h⟩ <;> rw [h]
  · simp [h0]
  · simp only [Bool.false_eq_true, false_iff]; omega
  · simp only [Bool.false_eq_true, false_iff]; omega

theorem send_log (c : Conn) (buf : List Byte) (hk : (send c buf).killed = false) :
    (send c buf).conn.log = c.log ++ [Event.send buf (send c buf).ret] := by
  rcases send_trichotomy c buf with ⟨_, h⟩ | ⟨_, h⟩ | ⟨_, h⟩
  · rw [h] at hk; cases hk
  · rw [h]
  · rw [h]

theorem send_log_killed (c : Conn) (buf : List Byte) (hk : (send c buf).killed = true) :
    (send c buf).conn.log = c.log ++ [Event.sigpipe buf] ∧
    (send c buf).conn.written = c.written := by
  rcases send_trichotomy c buf with ⟨_, h⟩ | ⟨_, h⟩ | ⟨_, h⟩
  · rw [h]; exact ⟨rfl, rfl⟩
  · rw [h] at hk; cases hk
  · rw [h] at hk; cases hk

/-- What a `send` call that returns can do: fail with -1 and write nothing,
or accept a leading part of the offered bytes. -/
theorem send_cases (c : Conn) (buf : List Byte) (hk : (send c buf).killed = false) :
    ((send c buf).ret = -1 ∧ (send c buf).conn.written = c.written) ∨
    (∃ k : Nat, (send c buf).ret = k ∧ k ≤ buf.length ∧
      (send c buf).conn.written = c.written ++ buf.take k) := by
  rcases send_trichotomy c buf with ⟨_, h⟩ | ⟨_, h⟩ | ⟨_, h⟩
  · rw [h] at hk; cases hk
  · rw [h]
    exact Or.inl ⟨rfl, rfl⟩
  · rw [h]
    exact Or.inr ⟨_, rfl, by omega, rfl⟩

/-- A `send` call whose script entry is positive and fits an `int`, offered at
least one byte, returns and accepts a positive count that fits an `int`. -/
theorem send_fits (c : Conn) (buf : List Byte) (h : fitsInt c.sendRet) (hlen : 0 < buf.length) :
    (send c buf).killed = false ∧
    ∃ k : Nat, 0 < k ∧ k < 2147483648 ∧ k ≤ buf.length ∧ (send c buf).ret = k ∧
      (send c buf).conn.written = c.written ++ buf.take k := by
  have hw := h c.nsend
  have hneg : ¬ c.sendRet c.nsend < 0 := by omega
  rw [send_nonneg c buf hneg]
  exact ⟨rfl, _, by omega, by omega, by omega, rfl, rfl⟩

/-! ## `recv_all` -/

theorem recv_all_loop_succ (fuel : Nat) (c : Conn) (acc : List Byte) (remaining : Nat) :
    recv_all_loop (fuel + 1) c acc remaining =
      if remaining > 0 then
        if toInt32 (recv c remaining).ret ≤ 0 then
          RecvAll.mk false acc (acc.length + (recv c remaining).data.length)
            (recv c remaining).conn
        else RecvAll.mk
          (recv_all_loop fuel (recv c remaining).conn
            (acc ++ (recv c remaining).data.take (toInt32 (recv c remaining).ret).toNat)
            (remaining - (toInt32 (recv c remaining).ret).toNat)).ok
          (recv_all_loop fuel (recv c remaining).conn
            (acc ++ (recv c remaining).data.take (toInt32 (recv c remaining).ret).toNat)
            (remaining - (toInt32 (recv c remaining).ret).toNat)).buf
          (max (acc.length + (recv c remaining).data.length)
            (recv_all_loop fuel (recv c remaining).conn
              (acc ++ (recv c remaining).data.take (toInt32 (recv c remaining).ret).toNat)
              (remaining - (toInt32 (recv c remaining).ret).toNat)).stored)
          (recv_all_loop fuel (recv c remaining).conn
            (acc ++ (recv c remaining).data.take (toInt32 (recv c remaining).ret).toNat)
            (remaining - (toInt32 (recv c remaining).ret).toNat)).conn
      else RecvAll.mk true acc acc.length c := rfl

theorem recv_all_loop_done (fuel : Nat) (c : Conn) (acc : List Byte) :
    recv_all_loop fuel c acc 0 = RecvAll.mk true acc acc.length c := by
  cases fuel <;> rfl

/-- The iteration bound of `recv_all_loop` is never the reason the loop stops:
any two bounds of at least `remaining` give the same result. -/
theorem recv_all_loop_fuel (f1 : Nat) :
    ∀ (f2 : Nat) (c : Conn) (acc : List Byte) (remaining : Nat),
      remaining ≤ f1 → remaining ≤ f2 →
      recv_all_loop f1 c acc remaining = recv_all_loop f2 c acc remaining := by
  induction f1 with
  | zero =>
    intro f2 c acc remaining h1 _
    have : remaining = 0 := by omega
    subst this
    rw [recv_all_loop_done, recv_all_loop_done]
  | succ f1 ih =>
    intro f2 c acc remaining h1 h2
    cases f2 with
    | zero =>
      have : remaining = 0 := by omega
      subst this
      rw [recv_all_loop_done, recv_all_loop_done]
    | succ f2 =>
      rw [recv_all_loop_succ, recv_all_loop_succ]
      by_cases hr : remaining > 0
      · rw [if_pos hr, if_pos hr]
        by_cases hn : toInt32 (recv c remaining).ret ≤ 0
        · rw [if_pos hn, if_pos hn]
        · rw [if_neg hn, if_neg hn]
          rw [ih f2 (recv c remaining).conn _ _ (by omega) (by omega)]
      · rw [if_neg hr, if_neg hr]

/-- The loop equation of `recv_all`, free of the iteration bound: one `recv`
of `len` bytes, then failure, or the same loop on what is left. -/
theorem recv_all_loop_unfold (c : Conn) (acc : List Byte) (remaining : Nat) :
    recv_all_loop remaining c acc remaining =
      if remaining > 0 then
        if toInt32 (recv c remaining).ret ≤ 0 then
          RecvAll.mk false acc (acc.length + (recv c remaining).data.length)
            (recv c remaining).conn
        else RecvAll.mk
          (recv_all_loop (remaining - (toInt32 (recv c remaining).ret).toNat)
            (recv c remaining).conn
            (acc ++ (recv c remaining).data.take (toInt32 (recv c remaining).ret).toNat)
            (remaining - (toInt32 (recv c remaining).ret).toNat)).ok
          (recv_all_loop (remaining - (toInt32 (recv c remaining).ret).toNat)
            (recv c remaining).conn
            (acc ++ (recv c remaining).data.take (toInt32 (recv c remaining).ret).toNat)
            (remaining - (toInt32 (recv c remaining).ret).toNat)).buf
          (max (acc.length + (recv c remaining).data.length)
            (recv_all_loop (remaining - (toInt32 (recv c remaining).ret).toNat)
              (recv c remaining).conn
              (acc ++ (recv c remaining).data.take (toInt32 (recv c remaining).ret).toNat)
              (remaining - (toInt32 (recv c remaining).ret).toNat)).stored)
          (recv_all_loop (remaining - (toInt32 (recv c remaining).ret).toNat)
            (recv c remaining).conn
            (acc ++ (recv c remaining).data.take (toInt32 (recv c remaining).ret).toNat)
            (remaining - (toInt32 (recv c remaining).ret).toNat)).conn
      else RecvAll.mk true acc acc.length c := by
  cases remaining with
  | zero => rfl
  | succ m =>
    rw [recv_all_loop_succ]
    simp only [gt_iff_lt, Nat.succ_pos, if_true]
    by_cases hn : toInt32 (recv c (m + 1)).ret ≤ 0
    · simp only [hn, if_true]
    · simp only [hn, if_false]
      rw [recv_all_loop_fuel m (m + 1 - (toInt32 (recv c (m + 1)).ret).toNat)
        (recv c (m + 1)).conn _ _ (by omega) (by omega)]

/-- A `recv` result that the loop accepts (`n > 0`) is a positive return value. -/
theorem recv_ret_pos_of_accepted (c : Conn) (len : Nat)
    (hn : ¬ toInt32 (recv c len).ret ≤ 0) : 0 < (recv c len).ret := by
  rcases recv_cases c len with ⟨h, _, _⟩ | ⟨k, h, _, _, _, _⟩
  · rw [h, toInt32_neg_one] at hn; omega
  · rw [h] at hn ⊢
    unfold toInt32 at hn
    omega

/-- A `recv` never stores more bytes than requested, and none when it returns
0 or less. -/
theorem recv_data_length (c : Conn) (len : Nat) :
    (recv c len).data.length ≤ len ∧ ((recv c len).ret ≤ 0 → (recv c len).data.length = 0) ∧
    (0 ≤ (recv c len).ret → (recv c len).data.length = (recv c len).ret.toNat) := by
  rcases recv_cases c len with ⟨h, hd, _⟩ | ⟨k, h, hk, hki, hd, _⟩
  · rw [hd, h]
    exact ⟨by simp, fun _ => rfl, fun h0 => by omega⟩
  · rw [hd, h, List.length_take]
    exact ⟨by omega, fun h0 => by omega, fun _ => by simp only [Int.toNat_ofNat]; omega⟩

/-- The function `recv_all` touches neither the sending side nor the scripts; it appends
only `recv` events to the log, and when it returns `true` every one of them
returned a positive count. When one of them returned 0 or less, fewer than the
requested bytes have been stored. -/
theorem recv_all_loop_frame (fuel : Nat) :
    ∀ (c : Conn) (acc : List Byte) (remaining : Nat),
      (recv_all_loop fuel c acc remaining).conn.written = c.written ∧
      (recv_all_loop fuel c acc remaining).conn.sendRet = c.sendRet ∧
      (recv_all_loop fuel c acc remaining).conn.nsend = c.nsend ∧
      (recv_all_loop fuel c acc remaining).conn.recvRet = c.recvRet ∧
      ∃ evs, (recv_all_loop fuel c acc remaining).conn.log = c.log ++ evs ∧
        (∀ e ∈ evs, e.isRecv = true) ∧
        ((recv_all_loop fuel c acc remaining).ok = true →
          ∀ len ret, Event.recv len ret ∈ evs → 0 < ret) ∧
        (remaining < 4294967296 → (∃ len ret, Event.recv len ret ∈ evs ∧ ret ≤ 0) →
          (recv_all_loop fuel c acc remaining).stored < acc.length + remaining) := by
  induction fuel with
  | zero =>
    intro c acc remaining
    exact ⟨rfl, rfl, rfl, rfl, [], by simp [recv_all_loop], by simp, by simp, by simp⟩
  | succ fuel ih =>
    intro c acc remaining
    rw [recv_all_loop_succ]
    by_cases hr : remaining > 0
    · rw [if_pos hr]
      by_cases hn : toInt32 (recv c remaining).ret ≤ 0
      · rw [if_pos hn]
        refine ⟨by simp, by simp, by simp, by simp,
          [Event.recv remaining (recv c remaining).ret], recv_log c remaining,
          by simp [Event.isRecv], by simp, ?_⟩
        intro _ hex
        obtain ⟨len, ret, hmem, hret⟩ := hex
        rw [List.mem_singleton] at hmem
        injection hmem with _ hret'
        subst hret'
        have := (recv_data_length c remaining).2.1 hret
        simp only []
        omega
      · rw [if_neg hn]
        obtain ⟨h1, h2, h3, h4, evs, h5, h6, h7, h8⟩ := ih (recv c remaining).conn
          (acc ++ (recv c remaining).data.take (toInt32 (recv c remaining).ret).toNat)
          (remaining - (toInt32 (recv c remaining).ret).toNat)
        have hpos := recv_ret_pos_of_accepted c remaining hn
        refine ⟨by simp only []; rw [h1]; simp, by simp only []; rw [h2]; simp,
          by simp only []; rw [h3]; simp, by simp only []; rw [h4]; simp,
          Event.recv remaining (recv c remaining).ret :: evs, ?_, ?_, ?_, ?_⟩
        · simp only []
          rw [h5, recv_log]; simp
        · intro e he
          rcases List.mem_cons.mp he with rfl | he
          · rfl
          · exact h6 e he
        · intro hok len ret hmem
          rcases List.mem_cons.mp hmem with heq | hmem
          · injection heq with _ hret
            rw [hret]
            exact hpos
          · exact h7 hok len ret hmem
        · intro hlt hex
          obtain ⟨len, ret, hmem, hret⟩ := hex
          rcases List.mem_cons.mp hmem with heq | hmem
          · injection heq with _ hret'
            omega
          · rcases recv_cases c remaining with ⟨h, _, _⟩ | ⟨k, hk, hkl, hki, hd, hc⟩
            · omega
            · have hke : toInt32 (recv c remaining).ret = k := by
                rw [hk]; apply toInt32_pos_eq <;> first | omega | (rw [hk] at hn; omega)
              have hrem : remaining - (toInt32 (recv c remaining).ret).toNat ≠ 0 := by
                intro h0
                rw [h0, recv_all_loop_done] at h5
                have : evs = [] := by simpa using h5
                rw [this] at hmem
                simp at hmem
              have := h8 (by omega) ⟨len, ret, hmem, hret⟩
              rw [hke] at this hrem
              simp only [Int.toNat_ofNat, hd, List.length_append, List.length_take,
                List.take_take, Nat.min_self] at this hrem
              simp only [hke, Int.toNat_ofNat, hd, List.length_take, List.take_take,
                Nat.min_self]
              omega
    · rw [if_neg hr]
      exact ⟨rfl, rfl, rfl, rfl, [], by simp, by simp, by simp, by simp⟩

/-- The stores of `recv_all` never go past the `remaining` bytes requested. -/
theorem recv_all_loop_stored_le (fuel : Nat) :
    ∀ (c : Conn) (acc : List Byte) (remaining : Nat),
      (recv_all_loop fuel c acc remaining).stored ≤ acc.length + remaining := by
  induction fuel with
  | zero => intro c acc remaining; simp [recv_all_loop]
  | succ fuel ih =>
    intro c acc remaining
    rw [recv_all_loop_succ]
    by_cases hr : remaining > 0
    · rw [if_pos hr]
      have hd := (recv_data_length c remaining).1
      by_cases hn : toInt32 (recv c remaining).ret ≤ 0
      · rw [if_pos hn]
        simp only []
        omega
      · rw [if_neg hn]
        have hpos := recv_ret_pos_of_accepted c remaining hn
        have hle := toInt32_pos_le (le_of_lt hpos) (by omega)
        have hdl := (recv_data_length c remaining).2.2 (le_of_lt hpos)
        have := ih (recv c remaining).conn
          (acc ++ (recv c remaining).data.take (toInt32 (recv c remaining).ret).toNat)
          (remaining - (toInt32 (recv c remaining).ret).toNat)
        simp only [List.length_append, List.length_take] at this
        simp only []
        omega
    · rw [if_neg hr]
      simp

/-- The first read of `handle_client` stays inside the object it fills. -/
theorem recv_all_stored_le (c : Conn) (len : Nat) : (recv_all c len).stored ≤ len := by
  have := recv_all_loop_stored_le len c [] len
  simpa [recv_all] using this

/-- When `recv_all` returns `true` for a length that a `uint32_t` holds, the
buffer holds exactly the next `remaining` bytes of the stream, in order,
nothing after them has been consumed, and exactly these bytes were stored. -/
theorem recv_all_loop_ok_spec (fuel : Nat) :
    ∀ (c : Conn) (acc : List Byte) (remaining : Nat),
      remaining ≤ fuel → remaining < 4294967296 →
      (recv_all_loop fuel c acc remaining).ok = true →
      remaining ≤ c.incoming.length ∧
      (recv_all_loop fuel c acc remaining).buf = acc ++ c.incoming.take remaining ∧
      (recv_all_loop fuel c acc remaining).conn.incoming = c.incoming.drop remaining ∧
      (recv_all_loop fuel c acc remaining).stored = acc.length + remaining := by
  induction fuel with
  | zero =>
    intro c acc remaining h1 _ _
    have : remaining = 0 := by omega
    subst this
    simp [recv_all_loop]
  | succ fuel ih =>
    intro c acc remaining h1 h2
    rw [recv_all_loop_succ]
    by_cases hr : remaining > 0
    · rw [if_pos hr]
      by_cases hn : toInt32 (recv c remaining).ret ≤ 0
      · rw [if_pos hn]
        intro h; cases h
      · rw [if_neg hn]
        have hpos := recv_ret_pos_of_accepted c remaining hn
        rcases recv_cases c remaining with ⟨h, _, _⟩ | ⟨k, hk, hkl, hki, hd, hc⟩
        · omega
        · have hke : toInt32 (recv c remaining).ret = k := by
            rw [hk]; apply toInt32_pos_eq <;> first | omega | (rw [hk] at hn; omega)
          rw [hke, hd]
          simp only [Int.toNat_ofNat]
          rw [hk] at hpos
          intro hok
          obtain ⟨i1, i2, i3, i4⟩ := ih _ _ _ (by omega) (by omega) hok
          rw [hc] at i1 i2 i3
          rw [List.length_drop] at i1
          refine ⟨by omega, ?_, ?_, ?_⟩
          · rw [i2, List.take_take, Nat.min_self, List.append_assoc]
            congr 1
            have : remaining = k + (remaining - k) := by omega
            conv_rhs => rw [this, List.take_add]
          · rw [i3, List.drop_drop]
            congr 1
            omega
          · rw [i4]
            simp only [List.length_append, List.length_take, List.take_take, Nat.min_self]
            omega
    · rw [if_neg hr]
      have : remaining = 0 := by omega
      subst this
      intro _
      simp

/-- When every `recv` returns between 1 and 2^31 - 1 bytes and the stream
holds `remaining` more bytes, `recv_all` returns `true`. -/
theorem recv_all_loop_ok_of_fits (fuel : Nat) :
    ∀ (c : Conn) (acc : List Byte) (remaining : Nat),
      remaining ≤ fuel → fitsInt c.recvRet → remaining ≤ c.incoming.length →
      (recv_all_loop fuel c acc remaining).ok = true := by
  induction fuel with
  | zero => intro c acc remaining _ _ _; rfl
  | succ fuel ih =>
    intro c acc remaining h1 hf hin
    rw [recv_all_loop_succ]
    by_cases hr : remaining > 0
    · rw [if_pos hr]
      obtain ⟨k, k0, k1, k2, k3, hk, _, hc⟩ := recv_fits c remaining hf hr (by omega)
      have hke : toInt32 (recv c remaining).ret = k := by
        rw [hk]; apply toInt32_of_small <;> omega
      have hn : ¬ toInt32 (recv c remaining).ret ≤ 0 := by rw [hke]; omega
      rw [if_neg hn]
      apply ih
      · rw [hke]; simp only [Int.toNat_ofNat]; omega
      · rw [recv_recvRet]; exact hf
      · rw [hke, hc, List.length_drop]; simp only [Int.toNat_ofNat]; omega
    · rw [if_neg hr]

/-! ## `send_all` -/

theorem send_all_loop_succ (fuel : Nat) (c : Conn) (rest : List Byte) :
    send_all_loop (fuel + 1) c rest =
      if rest.length > 0 then
        if (send c rest).killed then SendAll.mk true false (send c rest).conn
        else if toInt32 (send c rest).ret ≤ 0 then SendAll.mk false false (send c rest).conn
        else send_all_loop fuel (send c rest).conn (rest.drop (toInt32 (send c rest).ret).toNat)
      else SendAll.mk false true c := rfl

theorem send_all_loop_done (fuel : Nat) (c : Conn) :
    send_all_loop fuel c [] = SendAll.mk false true c := by
  cases fuel <;> rfl

/-- A `send` result that the loop accepts (`n > 0`) is a positive return value. -/
theorem send_ret_pos_of_accepted (c : Conn) (buf : List Byte) (hk : (send c buf).killed = false)
    (hn : ¬ toInt32 (send c buf).ret ≤ 0) : 0 < (send c buf).ret := by
  rcases send_cases c buf hk with ⟨h, _⟩ | ⟨k, h, _, _⟩
  · rw [h, toInt32_neg_one] at hn; omega
  · rw [h] at hn ⊢
    unfold toInt32 at hn
    omega

/-- The iteration bound of `send_all_loop` is never the reason the loop stops:
any two bounds of at least the number of bytes left give the same result. -/
theorem send_all_loop_fuel (f1 : Nat) :
    ∀ (f2 : Nat) (c : Conn) (rest : List Byte),
      rest.length ≤ f1 → rest.length ≤ f2 →
      send_all_loop f1 c rest = send_all_loop f2 c rest := by
  induction f1 with
  | zero =>
    intro f2 c rest h1 _
    have : rest = [] := List.length_eq_zero.mp (by omega)
    subst this
    rw [send_all_loop_done, send_all_loop_done]
  | succ f1 ih =>
    intro f2 c rest h1 h2
    cases f2 with
    | zero =>
      have : rest = [] := List.length_eq_zero.mp (by omega)
      subst this
      rw [send_all_loop_done, send_all_loop_done]
    | succ f2 =>
      rw [send_all_loop_succ, send_all_loop_succ]
      by_cases hr : rest.length > 0
      · rw [if_pos hr, if_pos hr]
        by_cases hk : (send c rest).killed = true
        · rw [if_pos hk, if_pos hk]
        · rw [if_neg hk, if_neg hk]
          by_cases hn : toInt32 (send c rest).ret ≤ 0
          · rw [if_pos hn, if_pos hn]
          · rw [if_neg hn, if_neg hn]
            have hk' : (send c rest).killed = false := by
              cases hh : (send c rest).killed
              · rfl
              · exact absurd hh hk
            have := send_ret_pos_of_accepted c rest hk' hn
            apply ih <;> (rw [List.length_drop]; omega)
      · rw [if_neg hr, if_neg hr]

/-- The function `send_all` touches neither the receiving side nor the scripts; it appends
only `send` events to the log, the first of which offers the whole buffer;
when every `send` returns they form one transfer of the buffer. -/
theorem send_all_loop_frame (fuel : Nat) :
    ∀ (c : Conn) (rest : List Byte),
      (send_all_loop fuel c rest).conn.incoming = c.incoming ∧
      (send_all_loop fuel c rest).conn.recvRet = c.recvRet ∧
      (send_all_loop fuel c rest).conn.nrecv = c.nrecv ∧
      (send_all_loop fuel c rest).conn.sendRet = c.sendRet ∧
      ((send_all_loop fuel c rest).ok = true → (send_all_loop fuel c rest).killed = false) ∧
      ∃ evs, (send_all_loop fuel c rest).conn.log = c.log ++ evs ∧
        (∀ e ∈ evs, e.isSend = true) ∧
        (0 < fuel → 0 < rest.length →
          ∃ e tail, evs = e :: tail ∧ e.offered = rest ∧
            ((send c rest).killed = false → e = Event.send rest (send c rest).ret) ∧
            ((send c rest).killed = false → toInt32 (send c rest).ret ≤ 0 → tail = [])) ∧
        (rest.length ≤ fuel → (send_all_loop fuel c rest).killed = false →
          is_transfer evs rest = true) ∧
        ((send_all_loop fuel c rest).killed = true →
          ∃ init off, evs = init ++ [Event.sigpipe off]) := by
  induction fuel with
  | zero =>
    intro c rest
    refine ⟨rfl, rfl, rfl, rfl, fun _ => rfl, [], by simp [send_all_loop], by simp, by omega,
      ?_, ?_⟩
    · intro h _
      have : rest = [] := List.length_eq_zero.mp (by omega)
      subst this
      rfl
    · intro h
      simp [send_all_loop] at h
  | succ fuel ih =>
    intro c rest
    rw [send_all_loop_succ]
    by_cases hr : rest.length > 0
    · rw [if_pos hr]
      have hne : rest.isEmpty = false := by
        cases rest with
        | nil => simp at hr
        | cons _ _ => rfl
      by_cases hk : (send c rest).killed = true
      · rw [if_pos hk]
        refine ⟨by simp, by simp, by simp, by simp, (fun h => by cases h),
          [Event.sigpipe rest], (send_log_killed c rest hk).1,
          by simp [Event.isSend], ?_, ?_, ?_⟩
        · intro _ _
          exact ⟨_, [], rfl, rfl, (fun h => by rw [hk] at h; cases h),
            (fun h => by rw [hk] at h; cases h)⟩
        · intro _ h
          cases h
        · intro _
          exact ⟨[], rest, rfl⟩
      · have hk' : (send c rest).killed = false := by
          cases hh : (send c rest).killed
          · rfl
          · exact absurd hh hk
        rw [if_neg hk]
        by_cases hn : toInt32 (send c rest).ret ≤ 0
        · rw [if_pos hn]
          refine ⟨by simp, by simp, by simp, by simp, (fun h => by cases h),
            [Event.send rest (send c rest).ret], send_log c rest hk',
            by simp [Event.isSend], ?_, ?_, ?_⟩
          · intro _ _
            exact ⟨_, [], rfl, rfl, fun _ => rfl, fun _ _ => rfl⟩
          · intro _ _
            simp [is_transfer, hne, hn]
          · intro h
            cases h
        · rw [if_neg hn]
          have hpos := send_ret_pos_of_accepted c rest hk' hn
          obtain ⟨h1, h2, h3, h4, h5, evs, h6, h7, _, h9, h10⟩ := ih (send c rest).conn
            (rest.drop (toInt32 (send c rest).ret).toNat)
          refine ⟨by rw [h1]; simp, by rw [h2]; simp, by rw [h3]; simp, by rw [h4]; simp, h5,
            Event.send rest (send c rest).ret :: evs, ?_, ?_, ?_, ?_, ?_⟩
          · rw [h6, send_log c rest hk']; simp
          · intro e he
            rcases List.mem_cons.mp he with rfl | he
            · rfl
            · exact h7 e he
          · intro _ _
            exact ⟨_, evs, rfl, rfl, fun _ => rfl, fun _ h => absurd h hn⟩
          · intro hlen hnk
            have := h9 (by rw [List.length_drop]; omega) hnk
            simp [is_transfer, hne, hn, this]
          · intro hkk
            obtain ⟨init, off, hi⟩ := h10 hkk
            exact ⟨_ :: init, off, by rw [hi]; rfl⟩
    · rw [if_neg hr]
      refine ⟨rfl, rfl, rfl, rfl, fun _ => rfl, [], by simp, by simp, by omega, ?_, ?_⟩
      · intro _ _
        have : rest = [] := List.length_eq_zero.mp (by omega)
        subst this
        rfl
      · intro h
        cases h

/-- When `send_all` returns `true` for a buffer whose length a `uint32_t`
holds, exactly the bytes of the buffer have been written, in order. -/
theorem send_all_loop_ok_spec (fuel : Nat) :
    ∀ (c : Conn) (rest : List Byte),
      rest.length ≤ fuel → rest.length < 4294967296 →
      (send_all_loop fuel c rest).ok = true →
      (send_all_loop fuel c rest).conn.written = c.written ++ rest := by
  induction fuel with
  | zero =>
    intro c rest h1 _ _
    have : rest = [] := List.length_eq_zero.mp (by omega)
    subst this
    simp [send_all_loop]
  | succ fuel ih =>
    intro c rest h1 h2
    rw [send_all_loop_succ]
    by_cases hr : rest.length > 0
    · rw [if_pos hr]
      by_cases hk : (send c rest).killed = true
      · rw [if_pos hk]
        intro h; cases h
      · have hk' : (send c rest).killed = false := by
          cases hh : (send c rest).killed
          · rfl
          · exact absurd hh hk
        rw [if_neg hk]
        by_cases hn : toInt32 (send c rest).ret ≤ 0
        · rw [if_pos hn]
          intro h; cases h
        · rw [if_neg hn]
          have hpos := send_ret_pos_of_accepted c rest hk' hn
          rcases send_cases c rest hk' with ⟨h, _⟩ | ⟨k, hk2, hkl, hw⟩
          · omega
          · have hke : toInt32 (send c rest).ret = k := by
              rw [hk2]; apply toInt32_pos_eq <;> first | omega | (rw [hk2] at hn; omega)
            rw [hke]
            simp only [Int.toNat_ofNat]
            intro hok
            rw [ih _ _ (by rw [List.length_drop]; omega) (by rw [List.length_drop]; omega) hok,
              hw, List.append_assoc, List.take_append_drop]
    · rw [if_neg hr]
      have : rest = [] := List.length_eq_zero.mp (by omega)
      subst this
      intro _
      simp

/-- When no `send` fails, and every accepted count fits an `int` (because the
script says so or because the buffer is that short), `send_all` returns
`true`. -/
theorem send_all_loop_ok_of_pos (fuel : Nat) :
    ∀ (c : Conn) (rest : List Byte),
      rest.length ≤ fuel → (∀ i, 1 ≤ c.sendRet i) →
      ((∀ i, c.sendRet i < 2147483648) ∨ rest.length < 2147483648) →
      (send_all_loop fuel c rest).ok = true := by
  induction fuel with
  | zero => intro c rest _ _ _; rfl
  | succ fuel ih =>
    intro c rest h1 hf hb
    rw [send_all_loop_succ]
    by_cases hr : rest.length > 0
    · rw [if_pos hr]
      have hw := hf c.nsend
      have hneg : ¬ c.sendRet c.nsend < 0 := by omega
      have hk : (send c rest).ret = (min (c.sendRet c.nsend).toNat rest.length : Nat) := by
        rw [send_nonneg c rest hneg]
      have hkl : (send c rest).killed = false := by
        rw [send_nonneg c rest hneg]
      have hsmall : min (c.sendRet c.nsend).toNat rest.length < 2147483648 := by
        rcases hb with hb | hb
        · have := hb c.nsend
          omega
        · omega
      have hke : toInt32 (send c rest).ret = (min (c.sendRet c.nsend).toNat rest.length : Nat) := by
        rw [hk]; apply toInt32_of_small <;> omega
      have hn : ¬ toInt32 (send c rest).ret ≤ 0 := by rw [hke]; omega
      rw [hkl, if_neg Bool.false_ne_true, if_neg hn]
      apply ih
      · rw [hke, List.length_drop]; simp only [Int.toNat_ofNat]; omega
      · rw [send_sendRet]; exact hf
      · rw [send_sendRet, List.length_drop]
        rcases hb with hb | hb
        · exact Or.inl hb
        · exact Or.inr (by omega)
    · rw [if_neg hr]

/-- When every `send` accepts between 1 and 2^31 - 1 bytes, `send_all`
returns `true`. -/
theorem send_all_loop_ok_of_fits (fuel : Nat) (c : Conn) (rest : List Byte)
    (h1 : rest.length ≤ fuel) (hf : fitsInt c.sendRet) :
    (send_all_loop fuel c rest).ok = true :=
  send_all_loop_ok_of_pos fuel c rest h1 (fun i => (hf i).1) (Or.inl fun i => (hf i).2)

/-- When every `send` call returns, `send_all` returns. -/
theorem send_all_loop_not_killed (fuel : Nat) :
    ∀ (c : Conn) (rest : List Byte), (∀ i, -1 ≤ c.sendRet i) →
      (send_all_loop fuel c rest).killed = false := by
  induction fuel with
  | zero => intro c rest _; rfl
  | succ fuel ih =>
    intro c rest hf
    rw [send_all_loop_succ]
    by_cases hr : rest.length > 0
    · rw [if_pos hr]
      have hk' : (send c rest).killed = false := by
        cases hh : (send c rest).killed
        · rfl
        · have := (send_killed_iff c rest).mp hh
          have := hf c.nsend
          omega
      rw [hk', if_neg Bool.false_ne_true]
      by_cases hn : toInt32 (send c rest).ret ≤ 0
      · rw [if_pos hn]
      · rw [if_neg hn]
        exact ih _ _ (by rw [send_sendRet]; exact hf)
    · rw [if_neg hr]

/-! ## binary32: values with at most 24 significant bits are not rounded -/

theorem roundHalfEven_intCast (k : Int) : roundHalfEven (k : ℚ) = k := by
  unfold roundHalfEven
  simp

theorem ulpExp_le (m e : Int) (hm0 : m ≠ 0) (hm : |m| < 2 ^ 24) (he : -149 ≤ e) :
    ulpExp ((m : ℚ) * 2 ^ e) ≤ e := by
  unfold ulpExp
  apply max_le _ he
  have hpos : (0 : ℚ) < |(m : ℚ) * 2 ^ e| := by
    apply abs_pos.mpr
    apply mul_ne_zero
    · exact_mod_cast hm0
    · exact zpow_ne_zero _ (by norm_num)
  have hlt : |(m : ℚ) * 2 ^ e| < ((2 : ℕ) : ℚ) ^ (e + 24) := by
    rw [Nat.cast_ofNat, abs_mul, abs_of_pos (zpow_pos (by norm_num : (0 : ℚ) < 2) e),
      zpow_add₀ (by norm_num), mul_comm]
    apply mul_lt_mul_of_pos_left _ (zpow_pos (by norm_num) e)
    have : |(m : ℚ)| < 2 ^ 24 := by exact_mod_cast hm
    exact_mod_cast this
  have := (Int.lt_zpow_iff_log_lt (by norm_num : 1 < 2) hpos).mp hlt
  omega

theorem roundF32_exact (m e : Int) (hm : |m| < 2 ^ 24) (he : -149 ≤ e) :
    roundF32 ((m : ℚ) * 2 ^ e) = (m : ℚ) * 2 ^ e := by
  by_cases hm0 : m = 0
  · subst hm0
    simp [roundF32, roundHalfEven]
  · have hE := ulpExp_le m e hm0 hm he
    unfold roundF32
    generalize ulpExp ((m : ℚ) * 2 ^ e) = E at hE
    obtain ⟨d, rfl⟩ : ∃ d : Nat, e = E + d := ⟨(e - E).toNat, by omega⟩
    have h2 : (2 : ℚ) ^ E ≠ 0 := zpow_ne_zero _ (by norm_num)
    have hq : (m : ℚ) * 2 ^ (E + (d : Int)) / 2 ^ E = ((m * 2 ^ d : Int) : ℚ) := by
      rw [zpow_add₀ (by norm_num), zpow_natCast]
      field_simp
      ring
    rw [hq, roundHalfEven_intCast]
    rw [zpow_add₀ (by norm_num), zpow_natCast]
    push_cast
    ring

/-- An `int16_t` converts to `float` without rounding, and dividing it by
`32768.0f` is exact as well. -/
theorem fdiv_int16 (s : Int) (h : -32768 ≤ s ∧ s ≤ 32767) :
    fdiv (floatOfInt16 s) 32768 = (s : ℚ) / 32768 := by
  have hm : |s| < 2 ^ 24 := by
    rw [abs_lt]; constructor <;> omega
  have h1 : floatOfInt16 s = (s : ℚ) := by
    have := roundF32_exact s 0 hm (by omega)
    simpa [floatOfInt16] using this
  have h2 := roundF32_exact s (-15) hm (by omega)
  have h3 : (s : ℚ) * 2 ^ (-15 : Int) = (s : ℚ) / 32768 := by
    rw [zpow_neg, div_eq_mul_inv]
    norm_num
  rw [h3] at h2
  rw [fdiv, h1, h2]

/-! ## The conversion loop -/

theorem convert_loop_spec (pcm16 : List Int) (fuel : Nat) :
    ∀ (i : Nat) (out : List ℚ), i + fuel = pcm16.length → out.length = pcm16.length →
      (∀ j, j < i → out[j]? = some (fdiv (floatOfInt16 (pcm16.getD j 0)) 32768)) →
      (convert_loop pcm16 fuel i out).length = pcm16.length ∧
      ∀ j, j < pcm16.length →
        (convert_loop pcm16 fuel i out)[j]? = some (fdiv (floatOfInt16 (pcm16.getD j 0)) 32768) := by
  induction fuel with
  | zero =>
    intro i out hi hlen hpre
    exact ⟨hlen, fun j hj => hpre j (by omega)⟩
  | succ fuel ih =>
    intro i out hi hlen hpre
    have hlt : i < pcm16.length := by omega
    simp only [convert_loop, hlt, if_true]
    apply ih (i + 1) _ (by omega) (by rw [List.length_set]; exact hlen)
    intro j hj
    rw [List.getElem?_set]
    by_cases hij : i = j
    · subst hij
      simp [hlen, hlt]
    · rw [if_neg hij]
      exact hpre j (by omega)

/-- The conversion block computes, element by element, the binary32 quotient
of the sample by 32768. -/
theorem convert_eq_map (pcm16 : List Int) :
    convert pcm16 = pcm16.map (fun s => fdiv (floatOfInt16 s) 32768) := by
  obtain ⟨hlen, hget⟩ := convert_loop_spec pcm16 pcm16.length 0
    (List.replicate pcm16.length 0) (by omega) (by simp) (by intro j hj; omega)
  apply List.ext_getElem?
  intro j
  by_cases hj : j < pcm16.length
  · rw [convert, hget j hj, List.getElem?_map, List.getElem?_eq_getElem hj,
      List.getD_eq_getElem _ _ hj]
    rfl
  · rw [List.getElem?_eq_none (by rw [convert, hlen]; omega),
      List.getElem?_eq_none (by rw [List.length_map]; omega)]

/-- On 16-bit samples the conversion block is exact: element `i` is
`pcm16[i] / 32768`. -/
theorem convert_exact (pcm16 : List Int) (h : ∀ s ∈ pcm16, -32768 ≤ s ∧ s ≤ 32767) :
    convert pcm16 = pcm16.map (fun (s : Int) => (s : ℚ) / 32768) := by
  rw [convert_eq_map]
  apply List.map_congr_left
  intro s hs
  exact fdiv_int16 s (h s hs)

/-! ## Samples in the receive buffer -/

theorem toInt16_range (v : Nat) : -32768 ≤ toInt16 v ∧ toInt16 v ≤ 32767 := by
  unfold toInt16
  split <;> omega

theorem pcm16_of_bytes_range : ∀ (bs : List Byte), ∀ s ∈ pcm16_of_bytes bs,
    -32768 ≤ s ∧ s ≤ 32767
  | [], s, hs => by simp [pcm16_of_bytes] at hs
  | [_], s, hs => by simp [pcm16_of_bytes] at hs
  | b0 :: b1 :: rest, s, hs => by
    simp only [pcm16_of_bytes, List.mem_cons] at hs
    rcases hs with rfl | hs
    · exact toInt16_range _
    · exact pcm16_of_bytes_range rest s hs

theorem pcm16_of_bytes_length : ∀ (bs : List Byte), (pcm16_of_bytes bs).length = bs.length / 2
  | [] => rfl
  | [_] => by simp [pcm16_of_bytes]
  | _ :: _ :: rest => by
    simp only [pcm16_of_bytes, List.length_cons, pcm16_of_bytes_length rest]
    omega

/-- Element `i` of the sample vector is the little-endian `int16_t` at bytes
`2i` and `2i+1` of the buffer. -/
theorem pcm16_of_bytes_getElem? : ∀ (bs : List Byte) (i : Nat), i < bs.length / 2 →
    (pcm16_of_bytes bs)[i]? = some (int16le (bs.getD (2 * i) 0) (bs.getD (2 * i + 1) 0))
  | [], i, h => by simp at h
  | [_], i, h => by simp only [List.length_singleton] at h; omega
  | b0 :: b1 :: rest, 0, _ => by simp [pcm16_of_bytes]
  | b0 :: b1 :: rest, i + 1, h => by
    have h' : i < rest.length / 2 := by
      simp only [List.length_cons] at h
      omega
    have e1 : 2 * (i + 1) = 2 * i + 1 + 1 := by ring
    have e2 : 2 * (i + 1) + 1 = 2 * i + 1 + 1 + 1 := by ring
    simp only [pcm16_of_bytes, List.getElem?_cons_succ, pcm16_of_bytes_getElem? rest i h', e1, e2,
      List.getD_cons_succ]

/-- A trailing unpaired byte of the buffer belongs to no sample: the samples
are those of the first `2 * (len / 2)` bytes. -/
theorem pcm16_of_bytes_take : ∀ (bs : List Byte),
    pcm16_of_bytes bs = pcm16_of_bytes (bs.take (2 * (bs.length / 2)))
  | [] => rfl
  | [_] => by simp [pcm16_of_bytes]
  | b0 :: b1 :: rest => by
    have e : 2 * ((b0 :: b1 :: rest).length / 2) = 2 * (rest.length / 2) + 1 + 1 := by
      simp only [List.length_cons]
      omega
    rw [e]
    simp only [List.take_succ_cons, pcm16_of_bytes]
    rw [← pcm16_of_bytes_take rest]

/-! ## `transcribe` -/

theorem segment_loop_spec (r : EngineResult) (fuel : Nat) :
    ∀ (k : Nat) (result : List Byte), k + fuel = r.n_segments.toNat →
      segment_loop r fuel (k : Int) result =
        result ++ ((List.range' k fuel).map (fun j => r.segment_text (j : Int))).flatten := by
  induction fuel with
  | zero => intro k result _; simp [segment_loop]
  | succ fuel ih =>
    intro k result hk
    have hlt : (k : Int) < r.n_segments := by omega
    simp only [segment_loop, hlt, if_true]
    have := ih (k + 1) (result ++ r.segment_text (k : Int)) (by omega)
    rw [Nat.cast_add, Nat.cast_one] at this
    rw [this, List.range'_succ]
    simp

/-! ## The two reads of `handle_client` -/

theorem bool_eq_false_of_ne_true {b : Bool} (h : ¬ b = true) : b = false := by
  cases b
  · rfl
  · exact absurd rfl h

/-- After a successful header read the buffer holds 4 bytes, so `audio_size`
is below 2^32. -/
theorem read_header_ok_size (c : Conn) (h1 : (read_header c).ok = true) :
    le32 (read_header c).buf < 4294967296 := by
  obtain ⟨hin, hb, _, _⟩ := recv_all_loop_ok_spec 4 c [] 4 (le_refl _) (by omega) h1
  have hlen : (read_header c).buf.length = 4 := by
    unfold read_header recv_all
    rw [hb, List.nil_append, List.length_take]
    omega
  have := le32_lt (read_header c).buf
  rw [hlen] at this
  omega

/-- After a successful payload read the buffer holds `audio_size` bytes, and
`audio_size` bytes have been stored. -/
theorem read_payload_ok_length (c : Conn) (h1 : (read_header c).ok = true)
    (h2 : (read_payload c).ok = true) :
    (read_payload c).buf.length = le32 (read_header c).buf ∧
    (read_payload c).stored = le32 (read_header c).buf := by
  obtain ⟨hin, hb, _, hs⟩ := recv_all_loop_ok_spec (le32 (read_header c).buf)
    (read_header c).conn [] (le32 (read_header c).buf) (le_refl _) (read_header_ok_size c h1) h2
  constructor
  · unfold read_payload recv_all
    rw [hb, List.nil_append, List.length_take]
    omega
  · unfold read_payload recv_all
    rw [hs]
    simp

/-- The payload read never stores more than `audio_size` bytes. -/
theorem read_payload_stored_le (c : Conn) :
    (read_payload c).stored ≤ le32 (read_header c).buf :=
  recv_all_stored_le _ _

/-- Effect of the two reads on the parts of the state they do not use. When a
`recv` of a run with a successful header read returned 0 or less, fewer than
`audio_size` bytes have been stored by the payload read. -/
theorem read_payload_frame (c : Conn) :
    (read_payload c).conn.written = c.written ∧ (read_payload c).conn.sendRet = c.sendRet ∧
    (read_payload c).conn.nsend = c.nsend ∧
    ∃ evs, (read_payload c).conn.log = c.log ++ evs ∧ (∀ e ∈ evs, e.isRecv = true) ∧
      ((read_header c).ok = true → (read_payload c).ok = true →
        ∀ len ret, Event.recv len ret ∈ evs → 0 < ret) ∧
      ((read_header c).ok = true → (∃ len ret, Event.recv len ret ∈ evs ∧ ret ≤ 0) →
        (read_payload c).stored < le32 (read_header c).buf) := by
  obtain ⟨a1, a2, a3, _, evs1, a5, a6, a7, _⟩ := recv_all_loop_frame 4 c [] 4
  obtain ⟨b1, b2, b3, _, evs2, b5, b6, b7, b8⟩ := recv_all_loop_frame (le32 (read_header c).buf)
    (read_header c).conn [] (le32 (read_header c).buf)
  refine ⟨?_, ?_, ?_, evs1 ++ evs2, ?_, ?_, ?_, ?_⟩
  · exact b1.trans a1
  · exact b2.trans a2
  · exact b3.trans a3
  · rw [← List.append_assoc, ← a5]; exact b5
  · intro e he
    rcases List.mem_append.mp he with he | he
    · exact a6 e he
    · exact b6 e he
  · intro h1 h2 len ret hmem
    rcases List.mem_append.mp hmem with hm | hm
    · exact a7 h1 len ret hm
    · exact b7 h2 len ret hm
  · intro h1 hex
    obtain ⟨len, ret, hmem, hret⟩ := hex
    rcases List.mem_append.mp hmem with hm | hm
    · have := a7 h1 len ret hm
      omega
    · have := b8 (read_header_ok_size c h1) ⟨len, ret, hm, hret⟩
      simpa [read_payload, recv_all] using this

theorem read_header_frame (c : Conn) :
    (read_header c).conn.written = c.written ∧
    ∃ evs, (read_header c).conn.log = c.log ++ evs ∧ (∀ e ∈ evs, e.isRecv = true) := by
  obtain ⟨a1, _, _, _, evs1, a5, a6, _⟩ := recv_all_loop_frame 4 c [] 4
  exact ⟨a1, evs1, a5, a6⟩

/-! ## `handle_client`: the four paths -/

theorem handle_client_header_fail (g_ctx : Engine) (c : Conn)
    (h : (read_header c).ok = false) :
    handle_client g_ctx c = Outcome.returned (CLOSE_SOCKET (read_header c).conn) := by
  unfold read_header at h
  simp only [handle_client, read_header, h, Bool.not_false, if_true]

/-- The payload read has stored a byte past the end of `pcm16`. -/
theorem handle_client_overrun (g_ctx : Engine) (c : Conn)
    (h1 : (read_header c).ok = true)
    (ho : 2 * (le32 (read_header c).buf / 2) < (read_payload c).stored) :
    handle_client g_ctx c = Outcome.undefined (read_payload c).conn := by
  unfold read_payload read_header at ho
  unfold read_header at h1
  simp only [handle_client, read_payload, read_header, h1, ho, Bool.not_true,
    Bool.false_eq_true, if_false, if_true]

theorem handle_client_payload_fail (g_ctx : Engine) (c : Conn)
    (h1 : (read_header c).ok = true)
    (ho : ¬ 2 * (le32 (read_header c).buf / 2) < (read_payload c).stored)
    (h2 : (read_payload c).ok = false) :
    handle_client g_ctx c = Outcome.returned (CLOSE_SOCKET (read_payload c).conn) := by
  unfold read_payload read_header at h2 ho
  unfold read_header at h1
  simp only [handle_client, read_payload, read_header, h1, h2, ho, Bool.not_true, Bool.not_false,
    if_true, Bool.false_eq_true, if_false]

theorem handle_client_reads_ok (g_ctx : Engine) (c : Conn)
    (h1 : (read_header c).ok = true)
    (ho : ¬ 2 * (le32 (read_header c).buf / 2) < (read_payload c).stored)
    (h2 : (read_payload c).ok = true) :
    handle_client g_ctx c =
      respond_outcome
        (engine_call (read_payload c).conn (convert (pcm16_of_bytes (read_payload c).buf)))
        (transcribe g_ctx (convert (pcm16_of_bytes (read_payload c).buf))) := by
  unfold read_payload read_header at h2 ho
  unfold read_header at h1
  simp only [handle_client, read_payload, read_header, h1, h2, ho, Bool.not_true,
    Bool.false_eq_true, if_false]

/-- After two successful reads a store has gone past the end of `pcm16`
exactly when `audio_size` is odd. -/
theorem overrun_iff_odd (c : Conn) (h1 : (read_header c).ok = true)
    (h2 : (read_payload c).ok = true) :
    2 * (le32 (read_header c).buf / 2) < (read_payload c).stored ↔
      le32 (read_header c).buf % 2 = 1 := by
  rw [(read_payload_ok_length c h1 h2).2]
  omega

/-- The run of `handle_client` on an even `audio_size` after two successful
reads: the response block. -/
theorem handle_client_even (g_ctx : Engine) (c : Conn)
    (h1 : (read_header c).ok = true) (h2 : (read_payload c).ok = true)
    (heven : le32 (read_header c).buf % 2 = 0) :
    handle_client g_ctx c =
      respond_outcome
        (engine_call (read_payload c).conn (convert (pcm16_of_bytes (read_payload c).buf)))
        (transcribe g_ctx (convert (pcm16_of_bytes (read_payload c).buf))) :=
  handle_client_reads_ok g_ctx c h1
    (by rw [overrun_iff_odd c h1 h2]; omega) h2

/-- The run of `handle_client` on an odd `audio_size` whose payload is
received completely: the last byte is stored past the end of `pcm16`. -/
theorem handle_client_odd (g_ctx : Engine) (c : Conn)
    (h1 : (read_header c).ok = true) (h2 : (read_payload c).ok = true)
    (hodd : le32 (read_header c).buf % 2 = 1) :
    handle_client g_ctx c = Outcome.undefined (read_payload c).conn :=
  handle_client_overrun g_ctx c h1 ((overrun_iff_odd c h1 h2).mpr hodd)

/-! ## The response block -/

theorem respond_outcome_killed1 (c : Conn) (text : List Byte)
    (h : (send_all c (le32bytes (text.length % 4294967296))).killed = true) :
    respond_outcome c text =
      Outcome.killed (send_all c (le32bytes (text.length % 4294967296))).conn := by
  simp only [respond_outcome, h, if_true]

theorem respond_outcome_killed2 (c : Conn) (text : List Byte)
    (h1 : (send_all c (le32bytes (text.length % 4294967296))).killed = false)
    (h2 : (send_all (send_all c (le32bytes (text.length % 4294967296))).conn
      (text.take (text.length % 4294967296))).killed = true) :
    respond_outcome c text =
      Outcome.killed (send_all (send_all c (le32bytes (text.length % 4294967296))).conn
        (text.take (text.length % 4294967296))).conn := by
  simp only [respond_outcome, h1, h2, if_true, Bool.false_eq_true, if_false]

theorem respond_outcome_alive (c : Conn) (text : List Byte)
    (h1 : (send_all c (le32bytes (text.length % 4294967296))).killed = false)
    (h2 : (send_all (send_all c (le32bytes (text.length % 4294967296))).conn
      (text.take (text.length % 4294967296))).killed = false) :
    respond_outcome c text =
      Outcome.returned (CLOSE_SOCKET
        (send_all (send_all c (le32bytes (text.length % 4294967296))).conn
          (text.take (text.length % 4294967296))).conn) := by
  simp only [respond_outcome, h1, h2, Bool.false_eq_true, if_false]

/-- The response block never stores anything in `pcm16`. -/
theorem respond_outcome_defined (c : Conn) (text : List Byte) :
    (respond_outcome c text).isUndefined = false := by
  by_cases h1 : (send_all c (le32bytes (text.length % 4294967296))).killed = true
  · rw [respond_outcome_killed1 c text h1]; rfl
  · have h1' := bool_eq_false_of_ne_true h1
    by_cases h2 : (send_all (send_all c (le32bytes (text.length % 4294967296))).conn
        (text.take (text.length % 4294967296))).killed = true
    · rw [respond_outcome_killed2 c text h1' h2]; rfl
    · rw [respond_outcome_alive c text h1' (bool_eq_false_of_ne_true h2)]; rfl

/-- The response block starts with a `send` call that offers the 4-byte
length; everything after it is a `send` call or the final `close`. When that
first call returns a failure, and the text is not empty, the next action is a
`send` call that offers the text. -/
theorem respond_log (c : Conn) (text : List Byte) :
    ∃ e tail, (respond c text).log = c.log ++ e :: tail ∧
      e.isSend = true ∧ e.offered = le32bytes (text.length % 4294967296) ∧
      (∀ x ∈ tail, x.isSend = true ∨ x = Event.close) ∧
      ((send c (le32bytes (text.length % 4294967296))).killed = false →
        e = Event.send (le32bytes (text.length % 4294967296))
          (send c (le32bytes (text.length % 4294967296))).ret) ∧
      ((send c (le32bytes (text.length % 4294967296))).killed = false →
        toInt32 (send c (le32bytes (text.length % 4294967296))).ret ≤ 0 →
        0 < text.length → text.length < 4294967296 →
        ∃ e2 tail2, tail = e2 :: tail2 ∧ e2.isSend = true ∧ e2.offered = text) := by
  obtain ⟨_, _, _, _, _, evs1, a5, a6, a7, _, _⟩ := send_all_loop_frame 4 c
    (le32bytes (text.length % 4294967296))
  obtain ⟨_, _, _, _, _, evs2, b5, b6, b7, _, _⟩ := send_all_loop_frame
    (text.take (text.length % 4294967296)).length
    (send_all c (le32bytes (text.length % 4294967296))).conn
    (text.take (text.length % 4294967296))
  obtain ⟨e, tail1, ht1, hoff, hev, htl⟩ := a7 (by omega) (by simp [le32bytes])
  subst ht1
  have he : e.isSend = true := a6 e (List.mem_cons_self _ _)
  have a5' : (send_all c (le32bytes (text.length % 4294967296))).conn.log =
      c.log ++ e :: tail1 := a5
  have b5' : (send_all (send_all c (le32bytes (text.length % 4294967296))).conn
      (text.take (text.length % 4294967296))).conn.log =
      (send_all c (le32bytes (text.length % 4294967296))).conn.log ++ evs2 := b5
  by_cases h1 : (send_all c (le32bytes (text.length % 4294967296))).killed = true
  · refine ⟨e, tail1, ?_, he, hoff, ?_, hev, ?_⟩
    · rw [respond, respond_outcome_killed1 c text h1]
      exact a5'
    · intro x hx
      exact Or.inl (a6 x (List.mem_cons_of_mem _ hx))
    · intro hk hfail _ _
      have hstep : send_all c (le32bytes (text.length % 4294967296)) =
          SendAll.mk false false (send c (le32bytes (text.length % 4294967296))).conn := by
        rw [send_all, le32bytes_length, send_all_loop_succ, if_pos (by simp [le32bytes]), hk,
          if_neg Bool.false_ne_true, if_pos hfail]
      rw [hstep] at h1
      cases h1
  · have h1' := bool_eq_false_of_ne_true h1
    have second : (send c (le32bytes (text.length % 4294967296))).killed = false →
        toInt32 (send c (le32bytes (text.length % 4294967296))).ret ≤ 0 →
        0 < text.length → text.length < 4294967296 →
        ∃ e2 tail2, tail1 ++ evs2 = e2 :: tail2 ∧ e2.isSend = true ∧ e2.offered = text := by
      intro hk hfail hpos hlt
      have hmod : text.length % 4294967296 = text.length := Nat.mod_eq_of_lt hlt
      rw [hmod, List.take_length] at b7
      obtain ⟨e2, tail2, ht2, hoff2, _, _⟩ := b7 hpos hpos
      have hnil := htl hk hfail
      subst hnil
      refine ⟨e2, tail2, by rw [ht2]; rfl, ?_, hoff2⟩
      exact b6 e2 (by rw [ht2]; exact List.mem_cons_self _ _)
    by_cases h2 : (send_all (send_all c (le32bytes (text.length % 4294967296))).conn
        (text.take (text.length % 4294967296))).killed = true
    · refine ⟨e, tail1 ++ evs2, ?_, he, hoff, ?_, hev, second⟩
      · rw [respond, respond_outcome_killed2 c text h1' h2]
        simp only [Outcome.conn]
        rw [b5', a5']
        simp
      · intro x hx
        rcases List.mem_append.mp hx with hx | hx
        · exact Or.inl (a6 x (List.mem_cons_of_mem _ hx))
        · exact Or.inl (b6 x hx)
    · have h2' := bool_eq_false_of_ne_true h2
      refine ⟨e, tail1 ++ evs2 ++ [Event.close], ?_, he, hoff, ?_, hev, ?_⟩
      · rw [respond, respond_outcome_alive c text h1' h2']
        simp only [Outcome.conn, CLOSE_SOCKET]
        rw [b5', a5']
        simp
      · intro x hx
        rcases List.mem_append.mp hx with hx | hx
        · rcases List.mem_append.mp hx with hx | hx
          · exact Or.inl (a6 x (List.mem_cons_of_mem _ hx))
          · exact Or.inl (b6 x hx)
        · exact Or.inr (List.mem_singleton.mp hx)
      · intro hk hfail hpos hlt
        obtain ⟨e2, tail2, ht2, hs2, hoff2⟩ := second hk hfail hpos hlt
        exact ⟨e2, tail2 ++ [Event.close], by rw [ht2]; rfl, hs2, hoff2⟩

/-- When every `send` call returns, the response block returns after the
transfer of the 4-byte length, the transfer of the text and the `close`. -/
theorem respond_outcome_returned (c : Conn) (text : List Byte) (hk : ∀ i, -1 ≤ c.sendRet i) :
    (respond_outcome c text).isReturned = true ∧
    ∃ sends1 sends2, (respond c text).log = c.log ++ sends1 ++ sends2 ++ [Event.close] ∧
      (∀ e ∈ sends1 ++ sends2, e.isSend = true) ∧
      is_transfer sends1 (le32bytes (text.length % 4294967296)) = true ∧
      is_transfer sends2 (text.take (text.length % 4294967296)) = true := by
  obtain ⟨_, _, _, s1, _, evs1, a5, a6, _, a8, _⟩ := send_all_loop_frame 4 c
    (le32bytes (text.length % 4294967296))
  obtain ⟨_, _, _, _, _, evs2, b5, b6, _, b8, _⟩ := send_all_loop_frame
    (text.take (text.length % 4294967296)).length
    (send_all c (le32bytes (text.length % 4294967296))).conn
    (text.take (text.length % 4294967296))
  have h1 : (send_all c (le32bytes (text.length % 4294967296))).killed = false :=
    send_all_loop_not_killed _ _ _ hk
  have h2 : (send_all (send_all c (le32bytes (text.length % 4294967296))).conn
      (text.take (text.length % 4294967296))).killed = false :=
    send_all_loop_not_killed _ _ _ (by
      have : (send_all c (le32bytes (text.length % 4294967296))).conn.sendRet = c.sendRet := s1
      rw [this]; exact hk)
  have a5' : (send_all c (le32bytes (text.length % 4294967296))).conn.log = c.log ++ evs1 := a5
  have b5' : (send_all (send_all c (le32bytes (text.length % 4294967296))).conn
      (text.take (text.length % 4294967296))).conn.log =
      (send_all c (le32bytes (text.length % 4294967296))).conn.log ++ evs2 := b5
  refine ⟨by rw [respond_outcome_alive c text h1 h2]; rfl, evs1, evs2, ?_, ?_,
    a8 (by simp [le32bytes]) h1, b8 (le_refl _) h2⟩
  · rw [respond, respond_outcome_alive c text h1 h2]
    simp only [Outcome.conn, CLOSE_SOCKET]
    rw [b5', a5']
  · intro e he
    rcases List.mem_append.mp he with he | he
    · exact a6 e he
    · exact b6 e he

theorem respond_incoming (c : Conn) (text : List Byte) :
    (respond c text).incoming = c.incoming := by
  obtain ⟨a1, _⟩ := send_all_loop_frame 4 c (le32bytes (text.length % 4294967296))
  obtain ⟨b1, _⟩ := send_all_loop_frame (text.take (text.length % 4294967296)).length
    (send_all c (le32bytes (text.length % 4294967296))).conn
    (text.take (text.length % 4294967296))
  have a1' : (send_all c (le32bytes (text.length % 4294967296))).conn.incoming = c.incoming := a1
  have b1' : (send_all (send_all c (le32bytes (text.length % 4294967296))).conn
      (text.take (text.length % 4294967296))).conn.incoming =
      (send_all c (le32bytes (text.length % 4294967296))).conn.incoming := b1
  by_cases h1 : (send_all c (le32bytes (text.length % 4294967296))).killed = true
  · rw [respond, respond_outcome_killed1 c text h1]
    exact a1'
  · have h1' := bool_eq_false_of_ne_true h1
    by_cases h2 : (send_all (send_all c (le32bytes (text.length % 4294967296))).conn
        (text.take (text.length % 4294967296))).killed = true
    · rw [respond, respond_outcome_killed2 c text h1' h2]
      exact b1'.trans a1'
    · rw [respond, respond_outcome_alive c text h1' (bool_eq_false_of_ne_true h2)]
      exact b1'.trans a1'

/-- When no `send` fails and every accepted count fits an `int`, the response
block writes the 4-byte little-endian length followed by the text, and
returns. -/
theorem respond_written (c : Conn) (text : List Byte) (hlen : text.length < 4294967296)
    (hpos : ∀ i, 1 ≤ c.sendRet i)
    (hfit : (∀ i, c.sendRet i < 2147483648) ∨ text.length < 2147483648) :
    (respond c text).written = c.written ++ (le32bytes text.length ++ text) ∧
    (respond_outcome c text).isReturned = true := by
  have hmod : text.length % 4294967296 = text.length := Nat.mod_eq_of_lt hlen
  have ok1 := send_all_loop_ok_of_pos 4 c (le32bytes text.length) (by simp [le32bytes]) hpos
    (Or.inr (by simp [le32bytes]))
  have w1 := send_all_loop_ok_spec 4 c (le32bytes text.length) (by simp [le32bytes])
    (by simp [le32bytes]) ok1
  obtain ⟨_, _, _, s1, k1, _⟩ := send_all_loop_frame 4 c (le32bytes text.length)
  have ok2 := send_all_loop_ok_of_pos text.length (send_all_loop 4 c (le32bytes text.length)).conn
    text (le_refl _) (by rw [s1]; exact hpos) (by rw [s1]; exact hfit)
  have w2 := send_all_loop_ok_spec text.length (send_all_loop 4 c (le32bytes text.length)).conn
    text (le_refl _) hlen ok2
  obtain ⟨_, _, _, _, k2, _⟩ := send_all_loop_frame text.length
    (send_all_loop 4 c (le32bytes text.length)).conn text
  have hal := respond_outcome_alive c text
    (by rw [hmod]; exact k1 ok1) (by rw [hmod, List.take_length]; exact k2 ok2)
  rw [respond, hal]
  refine ⟨?_, rfl⟩
  simp only [Outcome.conn, CLOSE_SOCKET, send_all, hmod, List.take_length, le32bytes_length]
  rw [w2, w1, List.append_assoc]

/-! ## C4: sample conversion -/

/-- C4. For every sequence `S` of signed 16-bit integers the conversion block
of `handle_client` yields a sequence of the same length whose `i`-th element
is exactly the rational `S[i] / 32768` (no binary32 rounding occurs); -32768
gives -1, 0 gives 0, 32767 gives 32767/32768, and every output lies in
`[-1, 1)`. -/
theorem C4_sample_conversion (S : List Int) (h : ∀ s ∈ S, -32768 ≤ s ∧ s ≤ 32767) :
    (convert S).length = S.length ∧
    (∀ (i : Nat) (hi : i < S.length), (convert S)[i]? = some ((S[i] : ℚ) / 32768)) ∧
    convert [-32768] = [-1] ∧ convert [0] = [0] ∧ convert [32767] = [32767 / 32768] ∧
    (∀ y ∈ convert S, -1 ≤ y ∧ y < 1) := by
  refine ⟨?_, ?_, ?_, ?_, ?_, ?_⟩
  · rw [convert_exact S h, List.length_map]
  · intro i hi
    rw [convert_exact S h, List.getElem?_map, List.getElem?_eq_getElem hi]
    rfl
  · rw [convert_exact _ (by decide)]
    norm_num
  · rw [convert_exact _ (by decide)]
    norm_num
  · rw [convert_exact _ (by decide)]
    norm_num
  · intro y hy
    rw [convert_exact S h] at hy
    obtain ⟨s, hs, rfl⟩ := List.mem_map.mp hy
    obtain ⟨hlo, hhi⟩ := h s hs
    have h1 : (-32768 : ℚ) ≤ (s : ℚ) := by exact_mod_cast hlo
    have h2 : (s : ℚ) ≤ 32767 := by exact_mod_cast hhi
    constructor
    · rw [le_div_iff₀ (by norm_num)]; linarith
    · rw [div_lt_iff₀ (by norm_num)]; linarith

/-- C4, at the samples of the specification scenario: `[16384, -16384]` are
16-bit values and convert to `[1/2, -1/2]`. -/
theorem C4_sample_conversion_witness :
    (∀ s ∈ ([16384, -16384] : List Int), -32768 ≤ s ∧ s ≤ 32767) ∧
    (convert [16384, -16384]).length = 2 ∧
    (convert [16384, -16384])[1]? = some ((-16384 : Int) / 32768 : ℚ) :=
  ⟨by decide, (C4_sample_conversion [16384, -16384] (by decide)).1,
    (C4_sample_conversion [16384, -16384] (by decide)).2.1 1 (by decide)⟩

/-! ## C7: segment concatenation -/

/-- C7. When the engine call returns status 0 and reports `n` segments,
`transcribe` returns the texts of segments `0, 1, ..., n-1` appended in index
order, each once and with nothing in between, before or after; for `n ≤ 0`
the result is the empty text. -/
theorem C7_segment_concatenation (g_ctx : Engine) (pcmf32 : List ℚ)
    (h : (g_ctx pcmf32).status = 0) :
    transcribe g_ctx pcmf32 =
      ((List.range (g_ctx pcmf32).n_segments.toNat).map
        (fun i => (g_ctx pcmf32).segment_text (i : Int))).flatten ∧
    ((g_ctx pcmf32).n_segments ≤ 0 → transcribe g_ctx pcmf32 = []) := by
  have key : transcribe g_ctx pcmf32 =
      ((List.range (g_ctx pcmf32).n_segments.toNat).map
        (fun i => (g_ctx pcmf32).segment_text (i : Int))).flatten := by
    have := segment_loop_spec (g_ctx pcmf32) (g_ctx pcmf32).n_segments.toNat 0 [] (by omega)
    simp only [transcribe, h, ne_eq, not_true_eq_false, if_false]
    rw [Nat.cast_zero] at this
    rw [this, List.nil_append, List.range_eq_range']
  refine ⟨key, ?_⟩
  intro hn
  have h0 : (g_ctx pcmf32).n_segments.toNat = 0 := by omega
  rw [key, h0]
  rfl

/-- C7, at an engine that reports the three segments "a", "b", "c". -/
theorem C7_segment_concatenation_witness :
    ((fun _ => EngineResult.mk 0 3 (fun i => [Fin.ofNat (97 + i.toNat)]) : Engine) []).status = 0 ∧
    transcribe (fun _ => EngineResult.mk 0 3 (fun i => [Fin.ofNat (97 + i.toNat)])) [] =
      [97, 98, 99] :=
  ⟨rfl, (C7_segment_concatenation
    (fun _ => EngineResult.mk 0 3 (fun i => [Fin.ofNat (97 + i.toNat)])) [] rfl).1.trans
      (by decide)⟩

/-! ## Transfers completed or refused in a single call -/

/-- A `recv` that hands over all `len` requested bytes at once, `len` below
2^31: `recv_all` returns `true` after this one call. -/
theorem recv_all_whole (c : Conn) (len : Nat) (h0 : 0 < len) (h1 : len < 2147483648)
    (hw : (len : Int) ≤ c.recvRet c.nrecv) (hin : len ≤ c.incoming.length) :
    recv_all c len = RecvAll.mk true (c.incoming.take len) len
      { c with incoming := c.incoming.drop len, nrecv := c.nrecv + 1,
               log := c.log ++ [Event.recv len len] } := by
  obtain ⟨m, rfl⟩ : ∃ m, len = m + 1 := ⟨len - 1, by omega⟩
  have hneg : ¬ c.recvRet c.nrecv < 0 := by omega
  have hmin : min (min (c.recvRet c.nrecv).toNat (m + 1)) c.incoming.length = m + 1 := by omega
  have hrecv := recv_nonneg c (m + 1) hneg
  rw [hmin] at hrecv
  have hto : toInt32 ((m + 1 : Nat) : Int) = ((m + 1 : Nat) : Int) :=
    toInt32_of_small (by omega) (by omega)
  have hn : ¬ toInt32 ((m + 1 : Nat) : Int) ≤ 0 := by rw [hto]; omega
  have hlt : (List.take (m + 1) c.incoming).length = m + 1 := by
    rw [List.length_take]; omega
  rw [recv_all, recv_all_loop_succ, if_pos (by omega), hrecv]
  simp only []
  rw [if_neg hn, hto, Int.toNat_ofNat, Nat.sub_self, recv_all_loop_done, List.nil_append,
    List.take_take, Nat.min_self]
  simp only [List.length_nil, Nat.zero_add, hlt, Nat.max_self]

/-- A `recv` that hands over all `len` requested bytes at once, `len` from
2^31 on: the count does not fit `int n`, the loop sees a negative `n` and
`recv_all` returns `false`. -/
theorem recv_all_whole_overflow (c : Conn) (len : Nat) (h0 : 2147483648 ≤ len)
    (h1 : len < 4294967296) (hw : (len : Int) ≤ c.recvRet c.nrecv)
    (hin : len ≤ c.incoming.length) :
    recv_all c len = RecvAll.mk false [] len
      { c with incoming := c.incoming.drop len, nrecv := c.nrecv + 1,
               log := c.log ++ [Event.recv len len] } := by
  obtain ⟨m, rfl⟩ : ∃ m, len = m + 1 := ⟨len - 1, by omega⟩
  have hneg : ¬ c.recvRet c.nrecv < 0 := by omega
  have hmin : min (min (c.recvRet c.nrecv).toNat (m + 1)) c.incoming.length = m + 1 := by omega
  have hrecv := recv_nonneg c (m + 1) hneg
  rw [hmin] at hrecv
  have hn : toInt32 ((m + 1 : Nat) : Int) ≤ 0 := by unfold toInt32; omega
  have hlt : (List.take (m + 1) c.incoming).length = m + 1 := by
    rw [List.length_take]; omega
  rw [recv_all, recv_all_loop_succ, if_pos (by omega), hrecv]
  simp only []
  rw [if_pos hn]
  simp only [List.length_nil, Nat.zero_add, hlt]

/-- A `send` that accepts the whole buffer at once, its length below 2^31:
`send_all` returns `true` after this one call. -/
theorem send_all_whole (c : Conn) (buf : List Byte) (h0 : 0 < buf.length)
    (h1 : buf.length < 2147483648) (hw : (buf.length : Int) ≤ c.sendRet c.nsend) :
    send_all c buf = SendAll.mk false true
      { c with written := c.written ++ buf, nsend := c.nsend + 1,
               log := c.log ++ [Event.send buf buf.length] } := by
  obtain ⟨m, hm⟩ : ∃ m, buf.length = m + 1 := ⟨buf.length - 1, by omega⟩
  have hneg : ¬ c.sendRet c.nsend < 0 := by omega
  have hmin : min (c.sendRet c.nsend).toNat buf.length = buf.length := by omega
  have hsend := send_nonneg c buf hneg
  rw [hmin] at hsend
  have hto : toInt32 (buf.length : Int) = (buf.length : Int) :=
    toInt32_of_small (by omega) (by omega)
  have hn : ¬ toInt32 (buf.length : Int) ≤ 0 := by rw [hto]; omega
  rw [send_all, hm, send_all_loop_succ, if_pos (by omega), hsend]
  simp only []
  rw [if_neg Bool.false_ne_true, if_neg hn, hto, Int.toNat_ofNat, List.drop_length,
    send_all_loop_done, List.take_length]
  rw [hm]

/-- A first `send` that returns a result the loop does not accept (`n <= 0`)
ends `send_all` with `false` after this one call. -/
theorem send_all_first_refused (c : Conn) (buf : List Byte) (h0 : 0 < buf.length)
    (hk : (send c buf).killed = false) (hn : toInt32 (send c buf).ret ≤ 0) :
    send_all c buf = SendAll.mk false false (send c buf).conn := by
  obtain ⟨m, hm⟩ : ∃ m, buf.length = m + 1 := ⟨buf.length - 1, by omega⟩
  rw [send_all, hm, send_all_loop_succ, if_pos (by omega), hk, if_neg Bool.false_ne_true,
    if_pos hn]

/-! ## C2: decoding a request -/

/-- The two reads on a well-formed request `le32bytes N ++ B ++ extra`, when
every `recv` returns between 1 and 2^31 - 1 bytes. -/
theorem reads_of_frame (B extra : List Byte) (recvRet sendRet : Nat → Int)
    (hN : B.length < 4294967296) (hrecv : fitsInt recvRet) :
    (read_header (Conn.accepted (le32bytes B.length ++ (B ++ extra)) recvRet sendRet)).ok = true ∧
    (read_header (Conn.accepted (le32bytes B.length ++ (B ++ extra)) recvRet sendRet)).buf =
      le32bytes B.length ∧
    (read_payload (Conn.accepted (le32bytes B.length ++ (B ++ extra)) recvRet sendRet)).ok = true ∧
    (read_payload (Conn.accepted (le32bytes B.length ++ (B ++ extra)) recvRet sendRet)).buf = B ∧
    (read_payload (Conn.accepted (le32bytes B.length ++ (B ++ extra)) recvRet sendRet)).conn.incoming
      = extra := by
  have hlen4 : 4 ≤ (le32bytes B.length ++ (B ++ extra)).length := by
    rw [List.length_append, le32bytes_length]; omega
  have ok1 := recv_all_loop_ok_of_fits 4
    (Conn.accepted (le32bytes B.length ++ (B ++ extra)) recvRet sendRet) [] 4 (le_refl _) hrecv hlen4
  obtain ⟨_, b1, i1, _⟩ := recv_all_loop_ok_spec 4
    (Conn.accepted (le32bytes B.length ++ (B ++ extra)) recvRet sendRet) [] 4 (le_refl _)
    (by omega) ok1
  have b1' : (read_header (Conn.accepted (le32bytes B.length ++ (B ++ extra)) recvRet sendRet)).buf
      = le32bytes B.length := by
    unfold read_header recv_all
    rw [b1]
    exact List.take_left' (le32bytes_length _)
  have i1' : (read_header (Conn.accepted (le32bytes B.length ++ (B ++ extra))
      recvRet sendRet)).conn.incoming = B ++ extra := by
    unfold read_header recv_all
    rw [i1]
    exact List.drop_left' (le32bytes_length _)
  obtain ⟨_, _, _, r1, _⟩ := recv_all_loop_frame 4
    (Conn.accepted (le32bytes B.length ++ (B ++ extra)) recvRet sendRet) [] 4
  have hsz : le32 (read_header (Conn.accepted (le32bytes B.length ++ (B ++ extra))
      recvRet sendRet)).buf = B.length := by
    rw [b1', le32_le32bytes _ hN]
  have ok2 := recv_all_loop_ok_of_fits B.length
    (read_header (Conn.accepted (le32bytes B.length ++ (B ++ extra)) recvRet sendRet)).conn []
    B.length (le_refl _) (by unfold read_header recv_all; rw [r1]; exact hrecv)
    (by rw [i1', List.length_append]; omega)
  obtain ⟨_, b2, i2, _⟩ := recv_all_loop_ok_spec B.length
    (read_header (Conn.accepted (le32bytes B.length ++ (B ++ extra)) recvRet sendRet)).conn []
    B.length (le_refl _) hN ok2
  refine ⟨ok1, b1', ?_, ?_, ?_⟩
  · unfold read_payload recv_all
    rw [hsz]
    exact ok2
  · unfold read_payload recv_all
    rw [hsz, b2, i1']
    exact List.take_left' rfl
  · unfold read_payload recv_all
    rw [hsz, i2, i1']
    exact List.drop_left' rfl

/-- C2 (amended). For every byte buffer `B` of even length `N < 2^32` and
every delivery of the stream "4-byte little-endian `N`, then `B`" in which
each `recv` returns between 1 and `min(requested, 2^31 - 1)` bytes, both
`recv_all` calls of `handle_client` succeed, `audio_size = N`, the payload
obtained is exactly `B` (`pcm16` holds the `N/2` little-endian samples of `B`
in order), and no byte after the `4 + N` of the frame is consumed. -/
theorem C2_request_decode (B extra : List Byte) (recvRet sendRet : Nat → Int)
    (heven : B.length % 2 = 0) (hN : B.length < 4294967296) (hrecv : fitsInt recvRet) :
    (read_header (Conn.accepted (le32bytes B.length ++ (B ++ extra)) recvRet sendRet)).ok = true ∧
    le32 (read_header (Conn.accepted (le32bytes B.length ++ (B ++ extra)) recvRet sendRet)).buf
      = B.length ∧
    (read_payload (Conn.accepted (le32bytes B.length ++ (B ++ extra)) recvRet sendRet)).ok = true ∧
    (read_payload (Conn.accepted (le32bytes B.length ++ (B ++ extra)) recvRet sendRet)).buf = B ∧
    (pcm16_of_bytes (read_payload (Conn.accepted (le32bytes B.length ++ (B ++ extra))
      recvRet sendRet)).buf).length = B.length / 2 ∧
    (∀ i, i < B.length / 2 →
      (pcm16_of_bytes (read_payload (Conn.accepted (le32bytes B.length ++ (B ++ extra))
        recvRet sendRet)).buf)[i]? = some (int16le (B.getD (2 * i) 0) (B.getD (2 * i + 1) 0))) ∧
    2 * (B.length / 2) = B.length ∧
    (read_payload (Conn.accepted (le32bytes B.length ++ (B ++ extra)) recvRet sendRet)).conn.incoming
      = extra ∧
    (∀ g_ctx : Engine,
      (handle_client g_ctx (Conn.accepted (le32bytes B.length ++ (B ++ extra))
        recvRet sendRet)).conn.incoming = extra ∧
      (handle_client g_ctx (Conn.accepted (le32bytes B.length ++ (B ++ extra))
        recvRet sendRet)).isUndefined = false) := by
  obtain ⟨ok1, b1, ok2, b2, i2⟩ := reads_of_frame B extra recvRet sendRet hN hrecv
  refine ⟨ok1, by rw [b1, le32_le32bytes _ hN], ok2, b2, by rw [b2, pcm16_of_bytes_length],
    ?_, by omega, i2, ?_⟩
  · intro i hi
    rw [b2]
    exact pcm16_of_bytes_getElem? B i hi
  · intro g_ctx
    rw [handle_client_even g_ctx _ ok1 ok2 (by rw [b1, le32_le32bytes _ hN]; exact heven)]
    refine ⟨?_, respond_outcome_defined _ _⟩
    have := respond_incoming (engine_call (read_payload (Conn.accepted
      (le32bytes B.length ++ (B ++ extra)) recvRet sendRet)).conn (convert (pcm16_of_bytes
      (read_payload (Conn.accepted (le32bytes B.length ++ (B ++ extra))
        recvRet sendRet)).buf))) (transcribe g_ctx (convert (pcm16_of_bytes
      (read_payload (Conn.accepted (le32bytes B.length ++ (B ++ extra))
        recvRet sendRet)).buf)))
    rw [respond] at this
    rw [this]
    exact i2

/-- C2, at the request of the specification scenario (`N = 4`, samples 16384
and -16384) followed by one further byte, delivered 3 bytes at a time. -/
theorem C2_request_decode_witness :
    ([0x00, 0x40, 0x00, 0xC0] : List Byte).length % 2 = 0 ∧
    ([0x00, 0x40, 0x00, 0xC0] : List Byte).length < 4294967296 ∧
    fitsInt (fun _ => 3) ∧
    (read_payload (Conn.accepted (le32bytes 4 ++ ([0x00, 0x40, 0x00, 0xC0] ++ [0xFF]))
      (fun _ => 3) (fun _ => 1))).buf = [0x00, 0x40, 0x00, 0xC0] ∧
    (read_payload (Conn.accepted (le32bytes 4 ++ ([0x00, 0x40, 0x00, 0xC0] ++ [0xFF]))
      (fun _ => 3) (fun _ => 1))).conn.incoming = [0xFF] :=
  ⟨by decide, by decide, fitsInt_const 3 (by decide) (by decide),
    (C2_request_decode [0x00, 0x40, 0x00, 0xC0] [0xFF] (fun _ => 3) (fun _ => 1)
      (by decide) (by decide) (fitsInt_const 3 (by decide) (by decide))).2.2.2.1,
    (C2_request_decode [0x00, 0x40, 0x00, 0xC0] [0xFF] (fun _ => 3) (fun _ => 1)
      (by decide) (by decide) (fitsInt_const 3 (by decide) (by decide))).2.2.2.2.2.2.2.1⟩

theorem big_request_wish : (4 : Int) ≤ big_request.recvRet big_request.nrecv := by simp [big_request, Conn.accepted]
theorem big_request_incoming :
    big_request.incoming = le32bytes two31 ++ List.replicate two31 0 := rfl
theorem big_request_length : 4 ≤ big_request.incoming.length := by
  rw [big_request_incoming, List.length_append, le32bytes_length]; omega
theorem big_request_take : big_request.incoming.take 4 = le32bytes two31 := by
  simp only [big_request, Conn.accepted, List.take_left' (le32bytes_length two31)]
theorem big_request_drop : big_request.incoming.drop 4 = List.replicate two31 0 := by
  simp only [big_request, Conn.accepted, List.drop_left' (le32bytes_length two31)]
theorem big_request_header : read_header big_request = RecvAll.mk true (le32bytes two31) 4
      { incoming := List.replicate two31 0, recvRet := fun _ => 2147483648,
        sendRet := fun _ => 1, nrecv := 1, nsend := 0, written := [],
        log := [Event.recv 4 4] } := by
    have h31 : two31 = 2147483648 := rfl
    unfold read_header
    rw [recv_all_whole big_request 4 (by omega) (by omega) big_request_wish big_request_length, big_request_take, big_request_drop]
    rfl

/-- The two reads on `big_request`: the header read succeeds with
`audio_size = two31`; the payload arrives in one `recv` of `two31` bytes,
which `int n` holds as a negative number, so the payload read fails. -/
theorem big_request_reads :
    read_header big_request = RecvAll.mk true (le32bytes two31) 4
      { incoming := List.replicate two31 0, recvRet := fun _ => 2147483648,
        sendRet := fun _ => 1, nrecv := 1, nsend := 0, written := [],
        log := [Event.recv 4 4] } ∧
    read_payload big_request = RecvAll.mk false [] two31
      { incoming := [], recvRet := fun _ => 2147483648,
        sendRet := fun _ => 1, nrecv := 2, nsend := 0, written := [],
        log := [Event.recv 4 4, Event.recv two31 two31] } := by
  have h31 : two31 = 2147483648 := rfl
  refine ⟨big_request_header, ?_⟩
  unfold read_payload
  rw [big_request_header]
  simp only []
  rw [le32_le32bytes _ (by omega)]
  rw [recv_all_whole_overflow _ two31 (by omega) (by omega) (by simp only []; omega)
    (by simp only [List.length_replicate]; omega)]
  simp only [List.drop_replicate, Nat.sub_self, List.replicate_zero, List.singleton_append,
    List.cons_append, List.nil_append]

/-- C2 refuted as stated: `big_request` delivers a well-formed frame with an
even payload length below 2^32, every `recv` returns between 1 and the
number of bytes requested, and yet the payload read fails. -/
theorem C2_counterexample :
    (List.replicate two31 (0 : Byte)).length % 2 = 0 ∧
    (List.replicate two31 (0 : Byte)).length < 4294967296 ∧
    big_request.incoming =
      le32bytes (List.replicate two31 (0 : Byte)).length ++ List.replicate two31 0 ∧
    (∀ len ret, Event.recv len ret ∈ (read_payload big_request).conn.log →
      1 ≤ ret ∧ ret ≤ (len : Int)) ∧
    (read_payload big_request).ok = false := by
  have h31 : two31 = 2147483648 := rfl
  refine ⟨?_, ?_, ?_, ?_, ?_⟩
  · rw [List.length_replicate, h31]
  · rw [List.length_replicate, h31]; omega
  · rw [List.length_replicate]; rfl
  · rw [big_request_reads.2]
    intro len ret hmem
    simp only [List.mem_cons, List.mem_singleton, Event.recv.injEq, List.not_mem_nil,
      or_false] at hmem
    rcases hmem with ⟨rfl, rfl⟩ | ⟨rfl, rfl⟩
    · omega
    · omega
  · rw [big_request_reads.2]

/-! ## C3: encoding a response -/

theorem decode_frame_encode (T : List Byte) (hM : T.length < 4294967296) :
    decode_frame (le32bytes T.length ++ T) = some (T, []) := by
  have h4 : ¬ (le32bytes T.length ++ T).length < 4 := by
    rw [List.length_append, le32bytes_length]; omega
  have htake : (le32bytes T.length ++ T).take 4 = le32bytes T.length :=
    List.take_left' (le32bytes_length _)
  have hdrop : (le32bytes T.length ++ T).drop 4 = T := List.drop_left' (le32bytes_length _)
  simp only [decode_frame, h4, if_false, htake, hdrop, le32_le32bytes _ hM, lt_irrefl,
    List.take_length, List.drop_length]

/-- C3 (amended). For every text `T` of `M < 2^32` bytes, if no `send` call
signals closure or error and each accepts between 1 and
`min(offered, 2^31 - 1)` bytes, then however the transfer is split the bytes
written by the response step of `handle_client` are exactly the 4-byte
little-endian `M` followed by the `M` bytes of `T`, and decoding that frame
(4 bytes as a length, then that many bytes) gives back `T`. -/
theorem C3_response_encode (c : Conn) (T : List Byte) (hM : T.length < 4294967296)
    (hsend : fitsInt c.sendRet) :
    (respond c T).written = c.written ++ (le32bytes T.length ++ T) ∧
    decode_frame (le32bytes T.length ++ T) = some (T, []) :=
  ⟨(respond_written c T hM (fun i => (hsend i).1) (Or.inl fun i => (hsend i).2)).1,
    decode_frame_encode T hM⟩

/-- C3, at the text "ok" sent one byte per call. -/
theorem C3_response_encode_witness :
    (cstr "ok").length < 4294967296 ∧
    fitsInt (Conn.accepted [] (fun _ => 1) (fun _ => 1)).sendRet ∧
    (respond (Conn.accepted [] (fun _ => 1) (fun _ => 1)) (cstr "ok")).written =
      [0x02, 0x00, 0x00, 0x00, 0x6F, 0x6B] :=
  ⟨by decide, fitsInt_const 1 (by decide) (by decide),
    (C3_response_encode (Conn.accepted [] (fun _ => 1) (fun _ => 1)) (cstr "ok") (by decide)
      (fitsInt_const 1 (by decide) (by decide))).1.trans (by decide)⟩

theorem big_text_length : big_text.length = two31 + 1 := by
  unfold big_text
  rw [List.length_replicate]

/-- The response block with a text of `two31 + 1` bytes on a connection whose
`send` accepts up to 2^31 bytes per call: the length prefix goes out in one
call; the next call accepts `two31` of the text bytes, which `int n` holds as
a negative number, so `send_all` stops with one byte of the text unsent. -/
theorem respond_long (c : Conn) (T : List Byte) (hT : T.length = two31 + 1)
    (h : ∀ i, c.sendRet i = 2147483648) :
    (respond c T).written = c.written ++ (le32bytes (two31 + 1) ++ T.take two31) ∧
    (respond c T).log =
      c.log ++ [Event.send (le32bytes (two31 + 1)) 4, Event.send T two31, Event.close] := by
  have h31 : two31 = 2147483648 := rfl
  have hmod : T.length % 4294967296 = two31 + 1 := by rw [hT]; omega
  have htake : T.take (two31 + 1) = T := List.take_of_length_le (by omega)
  have s1 := send_all_whole c (le32bytes (two31 + 1)) (by rw [le32bytes_length]; omega)
    (by rw [le32bytes_length]; omega) (by rw [le32bytes_length, h]; omega)
  rw [le32bytes_length] at s1
  have hneg : ¬ c.sendRet (c.nsend + 1) < 0 := by rw [h]; omega
  have hmin : min ((2147483648 : Int)).toNat T.length = two31 := by omega
  have s2 := send_nonneg
    { c with written := c.written ++ le32bytes (two31 + 1), nsend := c.nsend + 1,
             log := c.log ++ [Event.send (le32bytes (two31 + 1)) (4 : Nat)] }
    T hneg
  simp only [] at s2
  rw [h (c.nsend + 1), hmin] at s2
  have hn : toInt32 ((two31 : Nat) : Int) ≤ 0 := by unfold toInt32; omega
  have s3 := send_all_first_refused
    { c with written := c.written ++ le32bytes (two31 + 1), nsend := c.nsend + 1,
             log := c.log ++ [Event.send (le32bytes (two31 + 1)) (4 : Nat)] }
    T (by omega) (by rw [s2]) (by rw [s2]; exact hn)
  rw [s2] at s3
  have hal := respond_outcome_alive c T (by rw [hmod, s1])
    (by rw [hmod, htake, s1]; simp only []; rw [s3])
  rw [respond, hal]
  simp only [Outcome.conn, hmod, htake, s1, s3, CLOSE_SOCKET]
  exact ⟨by rw [List.append_assoc], by simp⟩

theorem respond_big_text (c : Conn) (h : ∀ i, c.sendRet i = 2147483648) :
    (respond c big_text).written = c.written ++ (le32bytes (two31 + 1) ++ big_text.take two31) ∧
    (respond c big_text).log =
      c.log ++ [Event.send (le32bytes (two31 + 1)) 4, Event.send big_text two31, Event.close] :=
  respond_long c big_text big_text_length h

/-- C3 refuted as stated: `big_text` has fewer than 2^32 bytes, every `send`
of the response step on `greedy_peer` accepts between 1 and the number of
bytes offered, and yet the bytes written are not the frame of `big_text`. -/
theorem C3_counterexample :
    big_text.length < 4294967296 ∧
    (∀ buf ret, Event.send buf ret ∈ (respond greedy_peer big_text).log →
      1 ≤ ret ∧ ret ≤ (buf.length : Int)) ∧
    (respond greedy_peer big_text).written ≠ le32bytes big_text.length ++ big_text := by
  have h31 : two31 = 2147483648 := rfl
  have hlen := big_text_length
  refine ⟨by omega, ?_, ?_⟩
  · rw [(respond_big_text greedy_peer (fun _ => rfl)).2,
      show greedy_peer.log = [] from rfl, List.nil_append]
    intro buf ret hmem
    simp only [List.mem_cons, List.mem_singleton, Event.send.injEq, List.not_mem_nil,
      or_false, reduceCtorEq] at hmem
    rcases hmem with ⟨rfl, rfl⟩ | ⟨rfl, rfl⟩
    · rw [le32bytes_length]; omega
    · omega
  · rw [(respond_big_text greedy_peer (fun _ => rfl)).1,
      show greedy_peer.written = [] from rfl, List.nil_append]
    intro h
    have := congrArg List.length h
    rw [List.length_append, List.length_append, List.length_take, le32bytes_length,
      le32bytes_length] at this
    omega

/-! ## C1: the end-to-end response -/

theorem engine_call_written (c : Conn) (s : List ℚ) : (engine_call c s).written = c.written := rfl

theorem engine_call_sendRet (c : Conn) (s : List ℚ) : (engine_call c s).sendRet = c.sendRet := rfl

theorem transcribe_ok_engine (s : List ℚ) : transcribe ok_engine s = cstr "ok" := by
  simp [transcribe, ok_engine, segment_loop]

/-- C1 (amended). For every even `N < 2^32`, every payload `B` of `N` bytes
arriving after its 4-byte little-endian length, and every engine whose text
for the sample buffer is shorter than 2^32 bytes: when every `recv` and
`send` call returns at least 1 and at most 2^31 - 1 bytes, the bytes written
to the connection are exactly the 4-byte little-endian length of the text
followed by the text, where the sample buffer has `N/2` elements and element
`i` is the little-endian int16 at bytes `2i`, `2i+1` of `B` divided by
32768; the handler returns. -/
theorem C1_end_to_end (B extra : List Byte) (recvRet sendRet : Nat → Int) (g_ctx : Engine)
    (heven : B.length % 2 = 0) (hN : B.length < 4294967296)
    (hrecv : fitsInt recvRet) (hsend : fitsInt sendRet)
    (htext : (transcribe g_ctx (convert (pcm16_of_bytes B))).length < 4294967296) :
    (handle_client g_ctx
        (Conn.accepted (le32bytes B.length ++ (B ++ extra)) recvRet sendRet)).conn.written =
      le32bytes (transcribe g_ctx (convert (pcm16_of_bytes B))).length ++
        transcribe g_ctx (convert (pcm16_of_bytes B)) ∧
    (convert (pcm16_of_bytes B)).length = B.length / 2 ∧
    2 * (B.length / 2) = B.length ∧
    (∀ i, i < B.length / 2 → (convert (pcm16_of_bytes B))[i]? =
      some ((int16le (B.getD (2 * i) 0) (B.getD (2 * i + 1) 0) : ℚ) / 32768)) ∧
    (handle_client g_ctx
        (Conn.accepted (le32bytes B.length ++ (B ++ extra)) recvRet sendRet)).isReturned
      = true := by
  obtain ⟨ok1, b1, ok2, b2, _⟩ := reads_of_frame B extra recvRet sendRet hN hrecv
  obtain ⟨w, sr, _, _⟩ := read_payload_frame
    (Conn.accepted (le32bytes B.length ++ (B ++ extra)) recvRet sendRet)
  have hex := convert_exact (pcm16_of_bytes B) (pcm16_of_bytes_range B)
  have hrun := handle_client_even g_ctx _ ok1 ok2 (by rw [b1, le32_le32bytes _ hN]; exact heven)
  rw [b2] at hrun
  obtain ⟨hw, hr⟩ := respond_written
    (engine_call (read_payload (Conn.accepted (le32bytes B.length ++ (B ++ extra))
      recvRet sendRet)).conn (convert (pcm16_of_bytes B)))
    (transcribe g_ctx (convert (pcm16_of_bytes B))) htext
    (by rw [engine_call_sendRet, sr]; exact fun i => (hsend i).1)
    (Or.inl (by rw [engine_call_sendRet, sr]; exact fun i => (hsend i).2))
  rw [respond, engine_call_written, w] at hw
  refine ⟨?_, ?_, by omega, ?_, ?_⟩
  · rw [hrun, hw]
    rfl
  · rw [hex, List.length_map, pcm16_of_bytes_length]
  · intro i hi
    rw [hex, List.getElem?_map, pcm16_of_bytes_getElem? B i hi]
    rfl
  · rw [hrun]
    exact hr

/-- C1, at the two scenarios of the specification: `N = 4` with the samples
16384 and -16384 (sample buffer `[1/2, -1/2]`) and `N = 0`, both with an
engine answering "ok": the response is `02 00 00 00 6F 6B`. -/
theorem C1_end_to_end_witness :
    ([0x00, 0x40, 0x00, 0xC0] : List Byte).length % 2 = 0 ∧
    fitsInt (fun _ => 3) ∧ fitsInt (fun _ => 5) ∧
    (handle_client ok_engine
      (Conn.accepted (le32bytes 4 ++ ([0x00, 0x40, 0x00, 0xC0] ++ [])) (fun _ => 3)
        (fun _ => 5))).conn.written = [0x02, 0x00, 0x00, 0x00, 0x6F, 0x6B] ∧
    (convert (pcm16_of_bytes [0x00, 0x40, 0x00, 0xC0]))[0]? = some ((1 : ℚ) / 2) ∧
    (convert (pcm16_of_bytes [0x00, 0x40, 0x00, 0xC0]))[1]? = some ((-1 : ℚ) / 2) ∧
    (convert (pcm16_of_bytes [0x00, 0x40, 0x00, 0xC0])).length = 2 ∧
    (handle_client ok_engine
      (Conn.accepted (le32bytes 0 ++ ([] ++ [])) (fun _ => 3) (fun _ => 5))).conn.written =
        [0x02, 0x00, 0x00, 0x00, 0x6F, 0x6B] ∧
    (convert (pcm16_of_bytes [])).length = 0 :=
  ⟨by decide, fitsInt_const 3 (by decide) (by decide), fitsInt_const 5 (by decide) (by decide),
    (C1_end_to_end [0x00, 0x40, 0x00, 0xC0] [] (fun _ => 3) (fun _ => 5) ok_engine (by decide)
      (by decide) (fitsInt_const 3 (by decide) (by decide))
      (fitsInt_const 5 (by decide) (by decide))
      (by rw [transcribe_ok_engine]; decide)).1.trans (by rw [transcribe_ok_engine]; decide),
    ((C1_end_to_end [0x00, 0x40, 0x00, 0xC0] [] (fun _ => 3) (fun _ => 5) ok_engine (by decide)
      (by decide) (fitsInt_const 3 (by decide) (by decide))
      (fitsInt_const 5 (by decide) (by decide))
      (by rw [transcribe_ok_engine]; decide)).2.2.2.1 0 (by decide)).trans
        (by rw [show int16le (([0x00, 0x40, 0x00, 0xC0] : List Byte).getD (2 * 0) 0)
              (([0x00, 0x40, 0x00, 0xC0] : List Byte).getD (2 * 0 + 1) 0) = 16384 by decide]
            norm_num),
    ((C1_end_to_end [0x00, 0x40, 0x00, 0xC0] [] (fun _ => 3) (fun _ => 5) ok_engine (by decide)
      (by decide) (fitsInt_const 3 (by decide) (by decide))
      (fitsInt_const 5 (by decide) (by decide))
      (by rw [transcribe_ok_engine]; decide)).2.2.2.1 1 (by decide)).trans
        (by rw [show int16le (([0x00, 0x40, 0x00, 0xC0] : List Byte).getD (2 * 1) 0)
              (([0x00, 0x40, 0x00, 0xC0] : List Byte).getD (2 * 1 + 1) 0) = -16384 by decide]
            norm_num),
    (C1_end_to_end [0x00, 0x40, 0x00, 0xC0] [] (fun _ => 3) (fun _ => 5) ok_engine (by decide)
      (by decide) (fitsInt_const 3 (by decide) (by decide))
      (fitsInt_const 5 (by decide) (by decide))
      (by rw [transcribe_ok_engine]; decide)).2.1,
    (C1_end_to_end [] [] (fun _ => 3) (fun _ => 5) ok_engine (by decide)
      (by decide) (fitsInt_const 3 (by decide) (by decide))
      (fitsInt_const 5 (by decide) (by decide))
      (by rw [transcribe_ok_engine]; decide)).1.trans (by rw [transcribe_ok_engine]; decide),
    (C1_end_to_end [] [] (fun _ => 3) (fun _ => 5) ok_engine (by decide)
      (by decide) (fitsInt_const 3 (by decide) (by decide))
      (fitsInt_const 5 (by decide) (by decide))
      (by rw [transcribe_ok_engine]; decide)).2.1⟩

/-- The run of `handle_client` on `big_request`: the payload read fails, so
the handler only closes the socket. -/
theorem handle_client_big_request (g_ctx : Engine) :
    (handle_client g_ctx big_request).conn.written = [] ∧
    (handle_client g_ctx big_request).conn.incoming = [] ∧
    (handle_client g_ctx big_request).conn.log =
      [Event.recv 4 4, Event.recv two31 two31, Event.close] := by
  have h31 : two31 = 2147483648 := rfl
  have h1 : (read_header big_request).ok = true := by rw [big_request_reads.1]
  have h2 : (read_payload big_request).ok = false := by rw [big_request_reads.2]
  have hsz : le32 (read_header big_request).buf = two31 := by
    rw [big_request_reads.1]
    exact le32_le32bytes _ (by omega)
  have ho : ¬ 2 * (le32 (read_header big_request).buf / 2) < (read_payload big_request).stored := by
    rw [hsz, big_request_reads.2]
    simp only []
    omega
  rw [handle_client_payload_fail g_ctx _ h1 ho h2, big_request_reads.2]
  exact ⟨rfl, rfl, rfl⟩

theorem long_text_length : long_text.length = two31 + 1 := by
  unfold long_text
  rw [List.length_replicate]

theorem transcribe_long_engine (s : List ℚ) : transcribe long_engine s = long_text := by
  simp [transcribe, long_engine, segment_loop]

/-- The run of `handle_client` on `greedy_request` with `long_engine`: both
reads succeed, and the response block stops one byte short of the text. -/
theorem handle_client_greedy_request :
    (handle_client long_engine greedy_request).conn.written =
      le32bytes (two31 + 1) ++ long_text.take two31 ∧
    ∃ evs : List Event, (∀ e ∈ evs, e.isSend = false) ∧
      (handle_client long_engine greedy_request).conn.log =
        evs ++ [Event.send (le32bytes (two31 + 1)) 4, Event.send long_text two31, Event.close]
      := by
  have h1 : (read_header greedy_request).ok = true := by decide
  have h2 : (read_payload greedy_request).ok = true := by decide
  have heven : le32 (read_header greedy_request).buf % 2 = 0 := by decide
  obtain ⟨w, sr, _, evs, hl, hr, _⟩ := read_payload_frame greedy_request
  obtain ⟨rw1, rl1⟩ := respond_long
    (engine_call (read_payload greedy_request).conn
      (convert (pcm16_of_bytes (read_payload greedy_request).buf)))
    long_text long_text_length
    (by intro i; rw [engine_call_sendRet, sr]; rfl)
  rw [respond] at rw1 rl1
  rw [handle_client_even long_engine _ h1 h2 heven, transcribe_long_engine]
  refine ⟨?_, evs ++ [Event.engine (convert (pcm16_of_bytes (read_payload greedy_request).buf))],
    ?_, ?_⟩
  · rw [rw1, engine_call_written, w]
    rfl
  · intro e he
    rcases List.mem_append.mp he with he | he
    · exact (isRecv_not_others (hr e he)).1
    · rw [List.mem_singleton.mp he]; rfl
  · rw [rl1]
    simp only [engine_call]
    rw [hl]
    rfl

/-- C1 refuted as stated, on either side of the exchange. First, on
`big_request`: the even byte count is below 2^32, the whole frame is
delivered (every `recv` returns between 1 and the number of bytes requested
and nothing is left in the stream), the engine text "ok" is short and no
`send` signals closure or error, and yet nothing is written. Second, on
`greedy_request` with `long_engine`: the empty request is read completely,
the text (letters `a`) has fewer than 2^32 bytes, every `send` accepts
between 1 and the number of bytes offered, and yet the bytes written are not
the frame of the text. -/
theorem C1_counterexample :
    ((List.replicate two31 (0 : Byte)).length % 2 = 0 ∧
      (List.replicate two31 (0 : Byte)).length < 4294967296 ∧
      big_request.incoming =
        le32bytes (List.replicate two31 (0 : Byte)).length ++ List.replicate two31 0 ∧
      (handle_client ok_engine big_request).conn.incoming = [] ∧
      (∀ len ret, Event.recv len ret ∈ (handle_client ok_engine big_request).conn.log →
        1 ≤ ret ∧ ret ≤ (len : Int)) ∧
      (∀ e ∈ (handle_client ok_engine big_request).conn.log, e.isSend = false) ∧
      (transcribe ok_engine
        (convert (pcm16_of_bytes (List.replicate two31 0)))).length < 4294967296 ∧
      (handle_client ok_engine big_request).conn.written ≠
        le32bytes
          (transcribe ok_engine (convert (pcm16_of_bytes (List.replicate two31 0)))).length
          ++ transcribe ok_engine (convert (pcm16_of_bytes (List.replicate two31 0)))) ∧
    (greedy_request.incoming = le32bytes ([] : List Byte).length ++ [] ∧
      (read_header greedy_request).ok = true ∧
      (read_payload greedy_request).ok = true ∧
      (read_payload greedy_request).buf = [] ∧
      (∀ b ∈ transcribe long_engine (convert (pcm16_of_bytes [])), b ≠ 0) ∧
      (transcribe long_engine (convert (pcm16_of_bytes []))).length < 4294967296 ∧
      (∀ e ∈ (handle_client long_engine greedy_request).conn.log, e.isSend = true →
        ∃ buf ret, e = Event.send buf ret ∧ 1 ≤ ret ∧ ret ≤ (buf.length : Int)) ∧
      (handle_client long_engine greedy_request).conn.written ≠
        le32bytes (transcribe long_engine (convert (pcm16_of_bytes []))).length
          ++ transcribe long_engine (convert (pcm16_of_bytes []))) := by
  have h31 : two31 = 2147483648 := rfl
  have hlen := long_text_length
  obtain ⟨hw, hi, hl⟩ := handle_client_big_request ok_engine
  obtain ⟨gw, evs, gs, gl⟩ := handle_client_greedy_request
  refine ⟨⟨?_, ?_, ?_, hi, ?_, ?_, ?_, ?_⟩,
    ⟨rfl, by decide, by decide, by decide, ?_, ?_, ?_, ?_⟩⟩
  · rw [List.length_replicate, h31]
  · rw [List.length_replicate, h31]; omega
  · rw [List.length_replicate]; rfl
  · rw [hl]
    intro len ret hmem
    simp only [List.mem_cons, List.mem_singleton, Event.recv.injEq, List.not_mem_nil,
      or_false, reduceCtorEq] at hmem
    rcases hmem with ⟨rfl, rfl⟩ | ⟨rfl, rfl⟩
    · omega
    · omega
  · rw [hl]
    intro e hmem
    simp only [List.mem_cons, List.mem_singleton, List.not_mem_nil, or_false] at hmem
    rcases hmem with rfl | rfl | rfl <;> rfl
  · rw [transcribe_ok_engine]; decide
  · rw [hw, transcribe_ok_engine]
    decide
  · rw [transcribe_long_engine]
    intro b hb
    unfold long_text at hb
    rw [List.eq_of_mem_replicate hb]
    decide
  · rw [transcribe_long_engine, hlen]; omega
  · rw [gl]
    intro e hmem hsend
    rcases List.mem_append.mp hmem with hm | hm
    · rw [gs _ hm] at hsend
      cases hsend
    · simp only [List.mem_cons, List.mem_singleton, List.not_mem_nil, or_false] at hm
      rcases hm with rfl | rfl | rfl
      · exact ⟨_, _, rfl, by omega, by rw [le32bytes_length]; omega⟩
      · exact ⟨_, _, rfl, by omega, by omega⟩
      · cases hsend
  · rw [gw, transcribe_long_engine]
    intro h
    have := congrArg List.length h
    rw [List.length_append, List.length_append, List.length_take, le32bytes_length,
      le32bytes_length] at this
    omega

/-! ## The shape of the log of `handle_client` -/

theorem countP_eq_zero_of_forall {p : Event → Bool} {l : List Event}
    (h : ∀ e ∈ l, p e = false) : l.countP p = 0 := by
  rw [List.countP_eq_zero]
  intro e he
  rw [h e he]
  exact Bool.false_ne_true

/-- The log of a run in which a read fails without a store past the end of
`pcm16`: `recv` calls, then the close; the function returns. -/
theorem handle_client_log_read_failed (g_ctx : Engine) (c : Conn)
    (h : (read_header c).ok = false ∨
      ((read_header c).ok = true ∧ (read_payload c).ok = false ∧
        ¬ 2 * (le32 (read_header c).buf / 2) < (read_payload c).stored)) :
    (handle_client g_ctx c).isReturned = true ∧
    (handle_client g_ctx c).conn.written = c.written ∧
    ∃ evs, (handle_client g_ctx c).conn.log = c.log ++ evs ++ [Event.close] ∧
      ∀ e ∈ evs, e.isRecv = true := by
  rcases h with h1 | ⟨h1, h2, ho⟩
  · obtain ⟨w, evs, hl, hr⟩ := read_header_frame c
    rw [handle_client_header_fail g_ctx c h1]
    exact ⟨rfl, w, evs, by simp only [Outcome.conn, CLOSE_SOCKET]; rw [hl], hr⟩
  · obtain ⟨w, _, _, evs, hl, hr, _⟩ := read_payload_frame c
    rw [handle_client_payload_fail g_ctx c h1 ho h2]
    exact ⟨rfl, w, evs, by simp only [Outcome.conn, CLOSE_SOCKET]; rw [hl], hr⟩

/-- The log of a run in which both reads succeed on an even `audio_size`:
`recv` calls that all returned a positive count, the engine call, then the
response block, whose first action is a `send` call offering the 4-byte
length. -/
theorem handle_client_log_reads_ok (g_ctx : Engine) (c : Conn)
    (h1 : (read_header c).ok = true) (h2 : (read_payload c).ok = true)
    (heven : le32 (read_header c).buf % 2 = 0) :
    ∃ evs e tail, (handle_client g_ctx c).conn.log =
        c.log ++ evs ++ Event.engine (convert (pcm16_of_bytes (read_payload c).buf)) ::
          e :: tail ∧
      (∀ x ∈ evs, x.isRecv = true) ∧
      (∀ len r, Event.recv len r ∈ evs → 0 < r) ∧
      e.isSend = true ∧
      e.offered = le32bytes ((transcribe g_ctx
        (convert (pcm16_of_bytes (read_payload c).buf))).length % 4294967296) ∧
      (∀ x ∈ tail, x.isSend = true ∨ x = Event.close) := by
  obtain ⟨_, _, _, evs, hl, hr, hp, _⟩ := read_payload_frame c
  obtain ⟨e, tail, hlog, hs, hoff, ht, _, _⟩ := respond_log
    (engine_call (read_payload c).conn (convert (pcm16_of_bytes (read_payload c).buf)))
    (transcribe g_ctx (convert (pcm16_of_bytes (read_payload c).buf)))
  refine ⟨evs, e, tail, ?_, hr, hp h1 h2, hs, hoff, ht⟩
  rw [handle_client_even g_ctx c h1 h2 heven]
  rw [respond] at hlog
  rw [hlog]
  simp only [engine_call]
  rw [hl]
  simp

/-! ## C5: a read failure yields no response -/

/-- C5. On every accepted connection on which some `recv` made by
`handle_client` signals closure or error (returns 0 or less), which can only
happen before the 4 length bytes or the declared payload bytes are complete,
`handle_client` performs no `send`, does not invoke the engine, writes
nothing, and ends by closing the socket, exactly once, and returns. -/
theorem C5_read_failure_no_response (g_ctx : Engine) (incoming : List Byte)
    (recvRet sendRet : Nat → Int)
    (h : ∃ len ret, Event.recv len ret ∈
        (handle_client g_ctx (Conn.accepted incoming recvRet sendRet)).conn.log ∧ ret ≤ 0) :
    (∀ e ∈ (handle_client g_ctx (Conn.accepted incoming recvRet sendRet)).conn.log,
      e.isSend = false ∧ e.isEngine = false) ∧
    (handle_client g_ctx (Conn.accepted incoming recvRet sendRet)).conn.written = [] ∧
    (handle_client g_ctx (Conn.accepted incoming recvRet sendRet)).conn.log.countP
      Event.isClose = 1 ∧
    (handle_client g_ctx (Conn.accepted incoming recvRet sendRet)).conn.log.getLast? =
      some Event.close ∧
    (handle_client g_ctx (Conn.accepted incoming recvRet sendRet)).isReturned = true := by
  have hfail : (read_header (Conn.accepted incoming recvRet sendRet)).ok = false ∨
      ((read_header (Conn.accepted incoming recvRet sendRet)).ok = true ∧
        (read_payload (Conn.accepted incoming recvRet sendRet)).ok = false ∧
        ¬ 2 * (le32 (read_header (Conn.accepted incoming recvRet sendRet)).buf / 2) <
          (read_payload (Conn.accepted incoming recvRet sendRet)).stored) := by
    by_cases h1 : (read_header (Conn.accepted incoming recvRet sendRet)).ok = true
    · right
      obtain ⟨_, _, _, evs, hl, hr, hp, hst⟩ :=
        read_payload_frame (Conn.accepted incoming recvRet sendRet)
      -- every `recv` event of the run is one of the two reads
      have hin : ∃ len ret, Event.recv len ret ∈ evs ∧ ret ≤ 0 := by
        obtain ⟨len, r, hmem, hr0⟩ := h
        refine ⟨len, r, ?_, hr0⟩
        by_cases ho : 2 * (le32 (read_header (Conn.accepted incoming recvRet sendRet)).buf / 2) <
            (read_payload (Conn.accepted incoming recvRet sendRet)).stored
        · rw [handle_client_overrun g_ctx _ h1 ho] at hmem
          simp only [Outcome.conn] at hmem
          rw [hl] at hmem
          simpa [Conn.accepted] using hmem
        · by_cases h2 : (read_payload (Conn.accepted incoming recvRet sendRet)).ok = true
          · have heven : le32 (read_header (Conn.accepted incoming recvRet sendRet)).buf % 2
                = 0 := by
              have := (overrun_iff_odd _ h1 h2).not.mp ho
              omega
            obtain ⟨evs', e, tail, hl', hr', hp', hs, _, ht⟩ :=
              handle_client_log_reads_ok g_ctx _ h1 h2 heven
            rw [hl'] at hmem
            simp only [Conn.accepted, List.nil_append, List.mem_append, List.mem_cons,
              reduceCtorEq, false_or] at hmem
            rcases hmem with hm | hm | hm
            · have := hp' len r hm
              omega
            · rw [← hm] at hs
              cases hs
            · rcases ht _ hm with hx | hx
              · cases hx
              · cases hx
          · rw [handle_client_payload_fail g_ctx _ h1 ho (bool_eq_false_of_ne_true h2)] at hmem
            simp only [Outcome.conn, CLOSE_SOCKET] at hmem
            rw [hl] at hmem
            simpa [Conn.accepted] using hmem
      have hlt := hst h1 hin
      have h2 : (read_payload (Conn.accepted incoming recvRet sendRet)).ok = false := by
        cases hh : (read_payload (Conn.accepted incoming recvRet sendRet)).ok
        · rfl
        · obtain ⟨len, r, hm, hr0⟩ := hin
          have := hp h1 hh len r hm
          omega
      exact ⟨h1, h2, by omega⟩
    · exact Or.inl (bool_eq_false_of_ne_true h1)
  obtain ⟨hret, w, evs, hl, hr⟩ := handle_client_log_read_failed g_ctx _ hfail
  have hl' : (handle_client g_ctx (Conn.accepted incoming recvRet sendRet)).conn.log =
      evs ++ [Event.close] := by
    rw [hl]; rfl
  refine ⟨?_, w, ?_, ?_, hret⟩
  · intro e he
    rw [hl'] at he
    rcases List.mem_append.mp he with he | he
    · exact ⟨(isRecv_not_others (hr e he)).1, (isRecv_not_others (hr e he)).2.1⟩
    · rw [List.mem_singleton.mp he]
      exact ⟨rfl, rfl⟩
  · rw [hl', List.countP_append,
      countP_eq_zero_of_forall (fun e he => (isRecv_not_others (hr e he)).2.2)]
    rfl
  · rw [hl', List.getLast?_concat]

/-- C5, at the two scenarios of the specification: the peer closes after 2 of
the 4 length bytes, and after 3 of 4 declared payload bytes; in both runs a
`recv` returns 0. -/
theorem C5_read_failure_no_response_witness :
    (∃ len ret, Event.recv len ret ∈
        (handle_client ok_engine
          (Conn.accepted [0x04, 0x00] (fun _ => 8) (fun _ => 8))).conn.log ∧
      ret ≤ 0) ∧
    (handle_client ok_engine (Conn.accepted [0x04, 0x00] (fun _ => 8) (fun _ => 8))).conn.written
      = [] ∧
    (∃ len ret, Event.recv len ret ∈
        (handle_client ok_engine
          (Conn.accepted (le32bytes 4 ++ [0x01, 0x02, 0x03]) (fun _ => 8)
            (fun _ => 8))).conn.log ∧
      ret ≤ 0) ∧
    (handle_client ok_engine
      (Conn.accepted (le32bytes 4 ++ [0x01, 0x02, 0x03]) (fun _ => 8)
        (fun _ => 8))).conn.written = [] :=
  ⟨⟨2, 0, by decide, by decide⟩,
    (C5_read_failure_no_response ok_engine [0x04, 0x00] (fun _ => 8) (fun _ => 8)
      ⟨2, 0, by decide, by decide⟩).2.1,
    ⟨1, 0, by decide, by decide⟩,
    (C5_read_failure_no_response ok_engine (le32bytes 4 ++ [0x01, 0x02, 0x03]) (fun _ => 8)
      (fun _ => 8) ⟨1, 0, by decide, by decide⟩).2.1⟩

/-! ## C6: inference failure is answered with a normal frame -/

/-- C6. For every request (an even byte count, as the wire format requires)
that is read completely, if the engine call returns a non-zero status then
`transcribe` returns exactly the 25 bytes of "[error: inference failed]" and
`handle_client` takes the response path: right after the engine call it makes
a `send` call that offers the length prefix `19 00 00 00`; when every `send`
call returns, the handler then closes the socket and returns; on a connection
where no `send` signals closure or error the bytes written are that prefix
followed by the 25 bytes. -/
theorem C6_inference_failure_framed (g_ctx : Engine) (c : Conn)
    (h1 : (read_header c).ok = true) (h2 : (read_payload c).ok = true)
    (heven : le32 (read_header c).buf % 2 = 0)
    (hfail : (g_ctx (convert (pcm16_of_bytes (read_payload c).buf))).status ≠ 0) :
    transcribe g_ctx (convert (pcm16_of_bytes (read_payload c).buf)) =
      cstr "[error: inference failed]" ∧
    (cstr "[error: inference failed]").length = 25 ∧
    (∃ evs e tail, (handle_client g_ctx c).conn.log =
        c.log ++ evs ++ Event.engine (convert (pcm16_of_bytes (read_payload c).buf)) ::
          e :: tail ∧
        (∀ x ∈ evs, x.isRecv = true) ∧ e.isSend = true ∧
        e.offered = [0x19, 0x00, 0x00, 0x00] ∧
        (∀ x ∈ tail, x.isSend = true ∨ x = Event.close)) ∧
    ((∀ i, -1 ≤ c.sendRet i) →
      (handle_client g_ctx c).isReturned = true ∧
      (handle_client g_ctx c).conn.log.getLast? = some Event.close) ∧
    ((∀ i, 1 ≤ c.sendRet i) →
      (handle_client g_ctx c).conn.written =
        c.written ++ ([0x19, 0x00, 0x00, 0x00] ++ cstr "[error: inference failed]")) := by
  have ht : transcribe g_ctx (convert (pcm16_of_bytes (read_payload c).buf)) =
      cstr "[error: inference failed]" := by
    simp only [transcribe, hfail, ne_eq, not_false_eq_true, if_true]
  have hlen : (cstr "[error: inference failed]").length = 25 := by decide
  obtain ⟨w, sr, _, _⟩ := read_payload_frame c
  have hrun := handle_client_even g_ctx c h1 h2 heven
  rw [ht] at hrun
  refine ⟨ht, hlen, ?_, ?_, ?_⟩
  · obtain ⟨evs, e, tail, hl, hr, _, hs, hoff, htl⟩ :=
      handle_client_log_reads_ok g_ctx c h1 h2 heven
    rw [ht] at hoff
    exact ⟨evs, e, tail, hl, hr, hs, hoff, htl⟩
  · intro hsend
    obtain ⟨hret, s1, s2, hl, _⟩ := respond_outcome_returned
      (engine_call (read_payload c).conn (convert (pcm16_of_bytes (read_payload c).buf)))
      (cstr "[error: inference failed]") (by rw [engine_call_sendRet, sr]; exact hsend)
    rw [respond] at hl
    rw [hrun]
    exact ⟨hret, by rw [hl, List.getLast?_concat]⟩
  · intro hsend
    obtain ⟨hw, _⟩ := respond_written
      (engine_call (read_payload c).conn (convert (pcm16_of_bytes (read_payload c).buf)))
      (cstr "[error: inference failed]") (by rw [hlen]; omega)
      (by rw [engine_call_sendRet, sr]; exact hsend) (Or.inr (by rw [hlen]; omega))
    rw [respond, engine_call_written, w, hlen] at hw
    rw [hrun, hw]
    rfl

/-- C6, at an empty request (`N = 0`) and an engine whose call fails. -/
theorem C6_inference_failure_framed_witness :
    (read_header (Conn.accepted (le32bytes 0) (fun _ => 8) (fun _ => 8))).ok = true ∧
    (read_payload (Conn.accepted (le32bytes 0) (fun _ => 8) (fun _ => 8))).ok = true ∧
    le32 (read_header (Conn.accepted (le32bytes 0) (fun _ => 8) (fun _ => 8))).buf % 2 = 0 ∧
    (failing_engine (convert (pcm16_of_bytes
      (read_payload (Conn.accepted (le32bytes 0) (fun _ => 8) (fun _ => 8))).buf))).status ≠ 0 ∧
    (handle_client failing_engine
      (Conn.accepted (le32bytes 0) (fun _ => 8) (fun _ => 8))).conn.written
      = [0x19, 0x00, 0x00, 0x00] ++ cstr "[error: inference failed]" :=
  ⟨by decide, by decide, by decide, by decide,
    (C6_inference_failure_framed failing_engine
      (Conn.accepted (le32bytes 0) (fun _ => 8) (fun _ => 8)) (by decide) (by decide)
      (by decide) (by decide)).2.2.2.2 (fun _ => (by decide : (1 : Int) ≤ 8))⟩

/-! ## C8: what follows a failed write of the length prefix -/

/-- When the first `send` of the response block returns -1, `handle_client`
goes on to the second `send_all`: for every non-empty text (shorter than
2^32) the next action is a `send` call that offers the whole text. -/
theorem respond_after_failed_length_write (c : Conn) (text : List Byte) (hpos : 0 < text.length)
    (hlt : text.length < 4294967296) (hfail : c.sendRet c.nsend = -1) :
    ∃ e2 tail, (respond c text).log =
        c.log ++ Event.send (le32bytes text.length) (-1) :: e2 :: tail ∧
      e2.isSend = true ∧ e2.offered = text := by
  obtain ⟨e, tail, hlog, _, _, _, hev, hnext⟩ := respond_log c text
  have hmod : text.length % 4294967296 = text.length := Nat.mod_eq_of_lt hlt
  rw [hmod] at hev hnext
  have hs := send_neg c (le32bytes text.length) (by omega) (by omega)
  have hk : (send c (le32bytes text.length)).killed = false := by rw [hs]
  have hr : (send c (le32bytes text.length)).ret = -1 := by rw [hs]
  have he := hev hk
  rw [hr] at he
  obtain ⟨e2, tail2, htail, hs2, hoff2⟩ := hnext hk (by rw [hr]; decide) hpos hlt
  exact ⟨e2, tail2, by rw [hlog, he, htail], hs2, hoff2⟩

/-- C8, evaluated at a failing input: an empty request answered "ok" on a
connection whose first `send` fails and whose later `send` calls succeed.
After the failed `send` of the length prefix `02 00 00 00`, `handle_client`
makes another `send` that offers the payload "ok"; the connection receives
the two payload bytes without any length prefix. -/
theorem C8_send_after_failed_length_write :
    (handle_client ok_engine
      (Conn.accepted (le32bytes 0) (fun _ => 4) (fun i => if i = 0 then -1 else 2))).conn.log =
      [Event.recv 4 4, Event.engine [], Event.send [0x02, 0x00, 0x00, 0x00] (-1),
        Event.send [0x6F, 0x6B] 2, Event.close] ∧
    (handle_client ok_engine
      (Conn.accepted (le32bytes 0) (fun _ => 4)
        (fun i => if i = 0 then -1 else 2))).conn.written = [0x6F, 0x6B] := by
  decide

/-! ## C9: one request per connection -/

/-- Whenever the header declares an odd byte count `N` and all `N` bytes
arrive, `pcm16` has room for `N - 1` bytes and `recv_all` stores `N`: the run
of `handle_client` has left defined behaviour before any sample is
converted, and the log holds no engine call, no `send` and no close. -/
theorem handle_client_odd_log (g_ctx : Engine) (c : Conn)
    (h1 : (read_header c).ok = true) (h2 : (read_payload c).ok = true)
    (hodd : le32 (read_header c).buf % 2 = 1) :
    (handle_client g_ctx c).isUndefined = true ∧
    (read_payload c).stored = le32 (read_header c).buf ∧
    2 * (le32 (read_header c).buf / 2) + 1 = (read_payload c).stored ∧
    ∃ evs, (handle_client g_ctx c).conn.log = c.log ++ evs ∧ ∀ e ∈ evs, e.isRecv = true := by
  obtain ⟨_, _, _, evs, hl, hr, _⟩ := read_payload_frame c
  have hst := (read_payload_ok_length c h1 h2).2
  rw [handle_client_odd g_ctx c h1 h2 hodd]
  exact ⟨rfl, hst, by rw [hst]; omega, evs, hl, hr⟩

/-- C10, evaluated at two failing inputs. A request that declares `N = 3` and
delivers `00 40 FF`, and a request that declares `N = 5` and delivers
`00 40 00 C0 FF`: both reads succeed, `pcm16` holds `floor(N / 2)` samples,
that is `N - 1` bytes, and the second `recv_all` stores `N` bytes into it.
The run of `handle_client` leaves defined behaviour at that store: the last
payload byte is written past the end of `pcm16`, before any sample is
converted: up to there the run holds no engine call, no response frame and
no close. -/
theorem C10_odd_length_overrun :
    ((read_header
        (Conn.accepted (le32bytes 3 ++ [0x00, 0x40, 0xFF]) (fun _ => 8) (fun _ => 8))).ok
        = true ∧
      (read_payload
        (Conn.accepted (le32bytes 3 ++ [0x00, 0x40, 0xFF]) (fun _ => 8) (fun _ => 8))).ok
        = true ∧
      (read_payload
        (Conn.accepted (le32bytes 3 ++ [0x00, 0x40, 0xFF]) (fun _ => 8) (fun _ => 8))).stored
        = 3 ∧
      2 * (le32 (read_header
        (Conn.accepted (le32bytes 3 ++ [0x00, 0x40, 0xFF]) (fun _ => 8) (fun _ => 8))).buf / 2)
        = 2 ∧
      (handle_client ok_engine
        (Conn.accepted (le32bytes 3 ++ [0x00, 0x40, 0xFF]) (fun _ => 8)
          (fun _ => 8))).isUndefined = true ∧
      (handle_client ok_engine
        (Conn.accepted (le32bytes 3 ++ [0x00, 0x40, 0xFF]) (fun _ => 8)
          (fun _ => 8))).conn.log = [Event.recv 4 4, Event.recv 3 3] ∧
      (handle_client ok_engine
        (Conn.accepted (le32bytes 3 ++ [0x00, 0x40, 0xFF]) (fun _ => 8)
          (fun _ => 8))).conn.written = []) ∧
    ((read_header
        (Conn.accepted (le32bytes 5 ++ [0x00, 0x40, 0x00, 0xC0, 0xFF]) (fun _ => 8)
          (fun _ => 8))).ok = true ∧
      (read_payload
        (Conn.accepted (le32bytes 5 ++ [0x00, 0x40, 0x00, 0xC0, 0xFF]) (fun _ => 8)
          (fun _ => 8))).ok = true ∧
      (read_payload
        (Conn.accepted (le32bytes 5 ++ [0x00, 0x40, 0x00, 0xC0, 0xFF]) (fun _ => 8)
          (fun _ => 8))).stored = 5 ∧
      2 * (le32 (read_header
        (Conn.accepted (le32bytes 5 ++ [0x00, 0x40, 0x00, 0xC0, 0xFF]) (fun _ => 8)
          (fun _ => 8))).buf / 2) = 4 ∧
      (handle_client ok_engine
        (Conn.accepted (le32bytes 5 ++ [0x00, 0x40, 0x00, 0xC0, 0xFF]) (fun _ => 8)
          (fun _ => 8))).isUndefined = true ∧
      (handle_client ok_engine
        (Conn.accepted (le32bytes 5 ++ [0x00, 0x40, 0x00, 0xC0, 0xFF]) (fun _ => 8)
          (fun _ => 8))).conn.log = [Event.recv 4 4, Event.recv 5 5] ∧
      (handle_client ok_engine
        (Conn.accepted (le32bytes 5 ++ [0x00, 0x40, 0x00, 0xC0, 0xFF]) (fun _ => 8)
          (fun _ => 8))).conn.written = []) := by
  decide

end PinkWhisper
